import Mathlib

/-!
# Verification of the Airbnb cleaning pipeline (`src/airbnb.py`)

A shallow embedding of the pandas cleaning script `airbnb.py` and proofs
of the specification claims about it.

Modelling conventions:
* A dataframe is a `Table`: a list of column names plus positional rows
  (pandas stores labelled, positionally aligned columns).
* A cell is a string, a rational number, an infinity (as produced by
  `float("inf")`), or a null (pandas `NaN`).  Floating point values that
  the script produces are exact decimal fractions, so `ℚ` is used for
  numeric cells.
* Python `str.lower` / `str.strip` are modelled on ASCII letters and
  ASCII whitespace, which is all the script's column names and tokens use.
* Python `str.replace(old, new)` (used via `pandas.Series.str.replace`
  with a literal pattern) replaces all non-overlapping occurrences
  scanning left to right; `replaceAll` below implements exactly that.
  For the single-character pattern `" "` this equals a character-wise map.
-/

namespace Airbnb

/-! ## Characters and strings (column names, cell strings) -/

/-- Column names and textual cell payloads as character lists. -/
abbrev Name := List Char

/-- ASCII lower-casing of one character, as in `Char.toLower`
(Python `str.lower` restricted to basic latin). -/
def lowerChar (c : Char) : Char :=
  if 65 ≤ c.toNat ∧ c.toNat ≤ 90 then Char.ofNat (c.toNat + 32) else c

/-- ASCII whitespace, the characters Python `str.strip` removes
(for the ASCII range). -/
def isSpaceChar (c : Char) : Bool :=
  c = ' ' || c = '\t' || c = '\n' || c = '\r' || c = '\x0b' || c = '\x0c'

/-- Remove leading whitespace. -/
def trimLeft (s : Name) : Name := s.dropWhile isSpaceChar

/-- Remove trailing whitespace. -/
def trimRight : Name → Name
  | [] => []
  | c :: t =>
    match trimRight t with
    | [] => if isSpaceChar c then [] else [c]
    | r => c :: r

/-- Python `str.strip`: remove leading and trailing whitespace. -/
def trim (s : Name) : Name := trimRight (trimLeft s)

/-- The substitution done by `.str.replace(" ", "_")` on one character. -/
def spaceToUnderscore (c : Char) : Char := if c = ' ' then '_' else c

/-- Fuel-driven worker for `replaceAll`; structural recursion on the fuel
keeps the function kernel-evaluable.  With fuel at least the length of the
remaining input (which `replaceAll` guarantees) it scans left to right and
replaces each occurrence of `pat`, skipping past the replaced segment. -/
def replaceGo (pat rep : Name) : Nat → Name → Name
  | _, [] => []
  | 0, s => s
  | fuel + 1, c :: t =>
    if pat.isPrefixOf (c :: t) then
      rep ++ replaceGo pat rep fuel (t.drop (pat.length - 1))
    else
      c :: replaceGo pat rep fuel t

/-- Python `str.replace(pat, rep)`: replace all non-overlapping
occurrences of `pat` left to right.  (Only called with non-empty `pat`.) -/
def replaceAll (pat rep s : Name) : Name := replaceGo pat rep s.length s

theorem replaceGo_congr (pat rep : Name) :
    ∀ f1 : Nat, ∀ f2 : Nat, ∀ s : Name, s.length ≤ f1 → s.length ≤ f2 →
      replaceGo pat rep f1 s = replaceGo pat rep f2 s := by
  intro f1
  induction f1 with
  | zero =>
    intro f2 s h1 _
    rw [List.length_eq_zero.mp (Nat.le_zero.mp h1)]
    cases f2 <;> rfl
  | succ f1 ih =>
    intro f2 s h1 h2
    cases s with
    | nil => cases f2 <;> rfl
    | cons c t =>
      cases f2 with
      | zero => simp at h2
      | succ f2 =>
        show (if pat.isPrefixOf (c :: t) then
            rep ++ replaceGo pat rep f1 (t.drop (pat.length - 1))
          else c :: replaceGo pat rep f1 t) =
          (if pat.isPrefixOf (c :: t) then
            rep ++ replaceGo pat rep f2 (t.drop (pat.length - 1))
          else c :: replaceGo pat rep f2 t)
        simp only [List.length_cons] at h1 h2
        by_cases hp : pat.isPrefixOf (c :: t)
        · rw [if_pos hp, if_pos hp,
            ih f2 (t.drop (pat.length - 1))
              (by simp only [List.length_drop]; omega)
              (by simp only [List.length_drop]; omega)]
        · rw [if_neg hp, if_neg hp, ih f2 t (by omega) (by omega)]

/-- The misspelling folded by the pipeline. -/
def ukSpelling : Name := "neighbourhood".data

/-- Its canonical replacement. -/
def usSpelling : Name := "neighborhood".data

/-- Header normalisation of one column name (`airbnb.py` lines 42–48):
lowercase, strip, spaces to underscores, fold `neighbourhood` onto
`neighborhood`. -/
def normName (n : Name) : Name :=
  replaceAll ukSpelling usSpelling
    ((trim (n.map lowerChar)).map spaceToUnderscore)

/-! ### Character-level facts -/

theorem toNat_ofNat_small {n : Nat} (h : n < 55296) : (Char.ofNat n).toNat = n := by
  have hv : n.isValidChar := Or.inl h
  rw [Char.ofNat, dif_pos hv]
  simp [Char.ofNatAux, Char.toNat, UInt32.ofNat', UInt32.toNat, BitVec.toNat_ofNatLt]

theorem lowerChar_idem (c : Char) : lowerChar (lowerChar c) = lowerChar c := by
  unfold lowerChar
  by_cases h : 65 ≤ c.toNat ∧ c.toNat ≤ 90
  · rw [if_pos h]
    have ht : (Char.ofNat (c.toNat + 32)).toNat = c.toNat + 32 :=
      toNat_ofNat_small (by omega)
    rw [if_neg (by omega)]
  · rw [if_neg h, if_neg h]

/-- A character unchanged by lower-casing. -/
def LFixed (c : Char) : Prop := lowerChar c = c

theorem lfixed_lowerChar (c : Char) : LFixed (lowerChar c) := lowerChar_idem c

theorem map_eq_self_of_fixed {f : Char → Char} {s : Name}
    (h : ∀ c ∈ s, f c = c) : s.map f = s :=
  (List.map_congr_left h).trans (List.map_id s)

/-! ### Trim lemmas -/

/-- The head of the list is not whitespace (vacuously for `[]`). -/
def noLeadSpace : Name → Prop
  | [] => True
  | c :: _ => isSpaceChar c = false

/-- The last element of the list is not whitespace (vacuously for `[]`). -/
def noTrailSpace : Name → Prop
  | [] => True
  | [c] => isSpaceChar c = false
  | _ :: c :: t => noTrailSpace (c :: t)

theorem noLeadSpace_trimLeft (s : Name) : noLeadSpace (trimLeft s) := by
  induction s with
  | nil => trivial
  | cons c t ih =>
    by_cases h : isSpaceChar c
    · simpa [trimLeft, List.dropWhile_cons, h] using ih
    · simp only [trimLeft, List.dropWhile_cons]
      rw [if_neg (by simp [h])]
      simpa [noLeadSpace] using (Bool.eq_false_iff.mpr h)

theorem trimLeft_eq_self {s : Name} (h : noLeadSpace s) : trimLeft s = s := by
  cases s with
  | nil => rfl
  | cons c t =>
    simp only [trimLeft, List.dropWhile_cons]
    rw [if_neg (by simp [noLeadSpace] at h; simp [h])]

theorem noTrailSpace_trimRight (s : Name) : noTrailSpace s → trimRight s = s := by
  induction s with
  | nil => exact fun _ => rfl
  | cons c t ih =>
    intro h
    cases t with
    | nil =>
      simp only [noTrailSpace] at h
      simp [trimRight, h]
    | cons d u =>
      have ht : noTrailSpace (d :: u) := h
      have h1 : trimRight (c :: d :: u) =
          (match trimRight (d :: u) with
           | [] => if isSpaceChar c = true then [] else [c]
           | r => c :: r) := rfl
      rw [h1, ih ht]

theorem trimRight_noTrail (s : Name) : noTrailSpace (trimRight s) := by
  induction s with
  | nil => trivial
  | cons c t ih =>
    simp only [trimRight]
    cases hr : trimRight t with
    | nil =>
      by_cases h : isSpaceChar c
      · simp [h]; trivial
      · simp only [h, if_false]
        simpa [noTrailSpace] using (Bool.eq_false_iff.mpr h)
    | cons d u =>
      rw [hr] at ih
      exact ih

theorem trimRight_noLead (s : Name) : noLeadSpace s → noLeadSpace (trimRight s) := by
  induction s with
  | nil => exact fun _ => trivial
  | cons c t _ =>
    intro h
    simp only [trimRight]
    cases hr : trimRight t with
    | nil =>
      by_cases hc : isSpaceChar c
      · simp [hc]; trivial
      · simp only [hc, if_false]
        exact h
    | cons d u => exact h

theorem trim_noLead (s : Name) : noLeadSpace (trim s) :=
  trimRight_noLead _ (noLeadSpace_trimLeft s)

theorem trim_noTrail (s : Name) : noTrailSpace (trim s) :=
  trimRight_noTrail (trimLeft s)

theorem trim_eq_self {s : Name} (h1 : noLeadSpace s) (h2 : noTrailSpace s) :
    trim s = s := by
  unfold trim
  rw [trimLeft_eq_self h1, noTrailSpace_trimRight s h2]

/-! ### `replaceAll` lemmas -/

theorem replaceAll_nil (pat rep : Name) : replaceAll pat rep [] = [] := rfl

theorem replaceAll_cons (pat rep : Name) (c : Char) (t : Name) :
    replaceAll pat rep (c :: t) =
      if pat.isPrefixOf (c :: t) then
        rep ++ replaceAll pat rep (t.drop (pat.length - 1))
      else c :: replaceAll pat rep t := by
  show (if pat.isPrefixOf (c :: t) then
      rep ++ replaceGo pat rep t.length (t.drop (pat.length - 1))
    else c :: replaceGo pat rep t.length t) = _
  unfold replaceAll
  by_cases hp : pat.isPrefixOf (c :: t)
  · rw [if_pos hp, if_pos hp,
      replaceGo_congr pat rep t.length (t.drop (pat.length - 1)).length
        (t.drop (pat.length - 1)) (by simp only [List.length_drop]; omega)
        (Nat.le_refl _)]
  · rw [if_neg hp, if_neg hp,
      replaceGo_congr pat rep t.length t.length t (Nat.le_refl _) (Nat.le_refl _)]

theorem mem_replaceAll (pat rep : Name) :
    ∀ s : Name, ∀ c ∈ replaceAll pat rep s, c ∈ s ∨ c ∈ rep
  | [] => by rw [replaceAll_nil]; simp
  | x :: t => by
    rw [replaceAll_cons]
    by_cases h : pat.isPrefixOf (x :: t)
    · rw [if_pos h]
      intro c hc
      rcases List.mem_append.mp hc with hc | hc
      · exact Or.inr hc
      · rcases mem_replaceAll pat rep _ c hc with hc | hc
        · exact Or.inl (List.mem_cons_of_mem x (List.mem_of_mem_drop hc))
        · exact Or.inr hc
    · rw [if_neg h]
      intro c hc
      rcases List.mem_cons.mp hc with hc | hc
      · exact Or.inl (hc ▸ List.mem_cons_self x t)
      · rcases mem_replaceAll pat rep t c hc with hc | hc
        · exact Or.inl (List.mem_cons_of_mem x hc)
        · exact Or.inr hc
termination_by s => s.length
decreasing_by
  · simp only [List.length_cons, List.length_drop]; omega
  · simp

theorem replaceAll_ne_nil {pat rep : Name} (hrep : rep ≠ []) {s : Name}
    (hs : s ≠ []) : replaceAll pat rep s ≠ [] := by
  cases s with
  | nil => exact absurd rfl hs
  | cons c t =>
    rw [replaceAll_cons]
    by_cases h : pat.isPrefixOf (c :: t)
    · rw [if_pos h]
      intro hcontra
      exact hrep (List.append_eq_nil.mp hcontra).1
    · rw [if_neg h]
      exact List.cons_ne_nil c _

theorem noLead_replaceAll {pat rep : Name} (hrep : noLeadSpace rep)
    (hrepne : rep ≠ []) {s : Name} (hs : noLeadSpace s) :
    noLeadSpace (replaceAll pat rep s) := by
  cases s with
  | nil => rw [replaceAll_nil]; trivial
  | cons c t =>
    rw [replaceAll_cons]
    by_cases h : pat.isPrefixOf (c :: t)
    · rw [if_pos h]
      cases rep with
      | nil => exact absurd rfl hrepne
      | cons d rs => exact hrep
    · rw [if_neg h]
      exact hs

theorem noTrail_tail {c : Char} {t : Name} (h : noTrailSpace (c :: t)) :
    noTrailSpace t := by
  cases t with
  | nil => trivial
  | cons d u => exact h

theorem noTrail_drop {s : Name} (h : noTrailSpace s) (k : Nat) :
    noTrailSpace (s.drop k) := by
  induction k generalizing s with
  | zero => exact h
  | succ n ih =>
    cases s with
    | nil => trivial
    | cons c t => exact ih (noTrail_tail h)

theorem noTrail_cons {c : Char} {w : Name} (hw : noTrailSpace w) (hne : w ≠ []) :
    noTrailSpace (c :: w) := by
  cases w with
  | nil => exact absurd rfl hne
  | cons d u => exact hw

theorem noTrail_append_right {x z : Name} (hz : noTrailSpace z) (hne : z ≠ []) :
    noTrailSpace (x ++ z) := by
  induction x with
  | nil => exact hz
  | cons c t ih =>
    exact noTrail_cons ih (by simp [List.append_eq_nil]; intro _; exact hne)

theorem noTrail_replaceAll {pat rep : Name} (hrep : noTrailSpace rep)
    (hrepne : rep ≠ []) :
    ∀ s : Name, noTrailSpace s → noTrailSpace (replaceAll pat rep s)
  | [] => fun _ => by rw [replaceAll_nil]; trivial
  | c :: t => fun hs => by
    rw [replaceAll_cons]
    by_cases h : pat.isPrefixOf (c :: t)
    · rw [if_pos h]
      cases hz : replaceAll pat rep (t.drop (pat.length - 1)) with
      | nil => simpa using hrep
      | cons d u =>
        have hrec := @noTrail_replaceAll pat rep hrep hrepne (t.drop (pat.length - 1))
          (noTrail_drop (noTrail_tail hs) _)
        rw [hz] at hrec
        exact noTrail_append_right hrec (List.cons_ne_nil d u)
    · rw [if_neg h]
      cases hz : replaceAll pat rep t with
      | nil =>
        cases t with
        | nil => exact hs
        | cons d u =>
          exact absurd hz (replaceAll_ne_nil hrepne (List.cons_ne_nil d u))
      | cons d u =>
        have hrec := @noTrail_replaceAll pat rep hrep hrepne t (noTrail_tail hs)
        rw [hz] at hrec
        exact noTrail_cons hrec (List.cons_ne_nil d u)
termination_by s => s.length
decreasing_by
  · simp only [List.length_cons, List.length_drop]; omega
  · simp

/-- `pat` occurs nowhere in `s` (as a contiguous sublist). -/
def noOccur (pat s : Name) : Prop := ∀ i : Nat, ¬ pat <+: s.drop i

theorem noOccur_tail {pat : Name} {c : Char} {t : Name}
    (h : noOccur pat (c :: t)) : noOccur pat t := fun i hi => by
  exact h (i + 1) (by simpa using hi)

theorem replaceAll_eq_self {pat rep : Name} :
    ∀ s : Name, noOccur pat s → replaceAll pat rep s = s
  | [] => fun _ => by rw [replaceAll_nil]
  | c :: t => fun h => by
    rw [replaceAll_cons]
    have hnp : ¬ pat.isPrefixOf (c :: t) := by
      intro hp
      exact h 0 (by simpa using (List.isPrefixOf_iff_prefix.mp hp))
    rw [if_neg hnp, replaceAll_eq_self t (noOccur_tail h)]

/-! ### Prefix bookkeeping for the no-new-occurrence argument -/

theorem prefix_of_prefix_append_short {p x z : Name} (h : p <+: x ++ z)
    (hl : p.length ≤ x.length) : p <+: x := by
  have h2 := List.prefix_iff_eq_take.mp h
  rw [List.take_append_of_le_length hl] at h2
  exact List.prefix_iff_eq_take.mpr h2

theorem prefix_append_long {p x z : Name} (h : p <+: x ++ z)
    (hl : x.length ≤ p.length) : x <+: p ∧ (p.drop x.length) <+: z := by
  obtain ⟨r, hr⟩ := h
  constructor
  · rw [List.prefix_iff_eq_take]
    have : (p ++ r).take x.length = (x ++ z).take x.length := by rw [hr]
    rw [List.take_append_of_le_length hl, List.take_left] at this
    exact this.symm
  · refine ⟨r, ?_⟩
    have : (p ++ r).drop x.length = (x ++ z).drop x.length := by rw [hr]
    rw [List.drop_append_of_le_length hl, List.drop_left] at this
    exact this

/-! ### The folded spelling never reappears

The replacement `neighbourhood → neighborhood` can never create a new
occurrence of `neighbourhood`: no proper suffix of the replacement is a
prefix of the pattern, and the pattern is not contained in the
replacement.  These finite facts are checked by `decide`; the structural
argument is `replaceAll_uk_good`. -/

theorem us_drop_not_prefix_uk :
    ∀ i, i < 12 → (usSpelling.drop i).isPrefixOf ukSpelling = false := by decide

theorem uk_drop_not_prefix_us :
    ∀ j, j < 13 → 1 ≤ j → (ukSpelling.drop j).isPrefixOf usSpelling = false := by decide

theorem uk_length : ukSpelling.length = 13 := rfl

theorem us_length : usSpelling.length = 12 := rfl

theorem replaceAll_uk_good :
    ∀ s : Name,
      noOccur ukSpelling (replaceAll ukSpelling usSpelling s) ∧
      (∀ j, 1 ≤ j → (ukSpelling.drop j) <+: replaceAll ukSpelling usSpelling s →
        (ukSpelling.drop j) <+: s)
  | [] => by
    rw [replaceAll_nil]
    constructor
    · intro i hpre
      rw [List.drop_nil] at hpre
      have := List.prefix_nil.mp hpre
      exact absurd this (by decide)
    · intro j _ hpre
      have := List.prefix_nil.mp hpre
      rw [this]
  | c :: t => by
    rw [replaceAll_cons]
    by_cases hp : ukSpelling.isPrefixOf (c :: t)
    · rw [if_pos hp]
      -- the pattern matches at the head: `c :: t = ukSpelling ++ u`
      obtain ⟨r, hr⟩ := List.isPrefixOf_iff_prefix.mp hp
      have hu : t.drop (ukSpelling.length - 1) = r := by
        have h13 : (c :: t).drop 13 = r := by
          rw [← hr, List.drop_left' uk_length]
        rw [uk_length]
        simpa using h13
      rw [hu]
      have ih := replaceAll_uk_good r
      constructor
      · intro i hpre
        by_cases hi : i < 12
        · rw [List.drop_append_of_le_length (by rw [us_length]; omega)] at hpre
          have hlong := prefix_append_long hpre
            (by simp only [List.length_drop, us_length, uk_length]; omega)
          have := List.isPrefixOf_iff_prefix.mpr hlong.1
          rw [us_drop_not_prefix_uk i hi] at this
          exact Bool.false_ne_true this
        · have hi' : i = 12 + (i - 12) := by omega
          rw [hi', show (12 : Nat) = usSpelling.length from rfl,
            List.drop_append] at hpre
          exact ih.1 _ hpre
      · intro j hj hpre
        by_cases hj13 : j < 13
        · have hshort := prefix_of_prefix_append_short hpre
            (by simp only [List.length_drop, us_length, uk_length]; omega)
          have := List.isPrefixOf_iff_prefix.mpr hshort
          rw [uk_drop_not_prefix_us j hj13 hj] at this
          exact absurd this Bool.false_ne_true
        · have : ukSpelling.drop j = [] :=
            List.drop_eq_nil_of_le (by rw [uk_length]; omega)
          rw [this]
          exact List.nil_prefix
    · rw [if_neg hp]
      have ih := replaceAll_uk_good t
      constructor
      · intro i hpre
        cases i with
        | zero =>
          rw [List.drop_zero] at hpre
          have hcons : ukSpelling = 'n' :: ukSpelling.drop 1 := rfl
          rw [hcons, List.cons_prefix_cons] at hpre
          have ht := ih.2 1 (by omega) hpre.2
          apply hp
          apply List.isPrefixOf_iff_prefix.mpr
          rw [hcons, List.cons_prefix_cons]
          exact ⟨hpre.1, ht⟩
        | succ i =>
          rw [List.drop_succ_cons] at hpre
          exact ih.1 i hpre
      · intro j hj hpre
        by_cases hj13 : j < 13
        · have hsplit : ukSpelling.drop j =
              ukSpelling[j] :: ukSpelling.drop (j + 1) :=
            List.drop_eq_getElem_cons (by rw [uk_length]; omega)
          rw [hsplit, List.cons_prefix_cons] at hpre ⊢
          exact ⟨hpre.1, ih.2 (j + 1) (by omega) hpre.2⟩
        · have : ukSpelling.drop j = [] :=
            List.drop_eq_nil_of_le (by rw [uk_length]; omega)
          rw [this]
          exact List.nil_prefix
termination_by s => s.length
decreasing_by
  · have hlen := congrArg List.length hr
    simp only [List.length_append, List.length_cons, uk_length] at hlen
    simp only [List.length_cons]
    omega
  · simp

/-! ### Idempotence of header normalisation -/

theorem trimRight_sublist (s : Name) : List.Sublist (trimRight s) s := by
  induction s with
  | nil => exact List.Sublist.refl []
  | cons c t ih =>
    cases hr : trimRight t with
    | nil =>
      show List.Sublist (match trimRight t with
        | [] => if isSpaceChar c = true then [] else [c]
        | r => c :: r) (c :: t)
      rw [hr]
      by_cases h : isSpaceChar c
      · simp [h]
      · simp [h]
    | cons d u =>
      show List.Sublist (match trimRight t with
        | [] => if isSpaceChar c = true then [] else [c]
        | r => c :: r) (c :: t)
      rw [hr]
      rw [hr] at ih
      exact List.Sublist.cons₂ c ih

theorem mem_trim {c : Char} {s : Name} (h : c ∈ trim s) : c ∈ s :=
  (List.dropWhile_sublist isSpaceChar).mem ((trimRight_sublist (trimLeft s)).mem h)

theorem spaceToUnderscore_idem (c : Char) :
    spaceToUnderscore (spaceToUnderscore c) = spaceToUnderscore c := by
  unfold spaceToUnderscore
  by_cases h : c = ' '
  · simp [h]
  · simp [h]

theorem lfixed_spaceToUnderscore {c : Char} (h : LFixed c) :
    LFixed (spaceToUnderscore c) := by
  unfold spaceToUnderscore
  by_cases hc : c = ' '
  · rw [if_pos hc]
    show lowerChar '_' = '_'
    decide
  · simpa [hc] using h

theorem spaceToUnderscore_of_not_space {c : Char} (h : isSpaceChar c = false) :
    spaceToUnderscore c = c := by
  unfold spaceToUnderscore
  rw [if_neg]
  intro hc
  rw [hc] at h
  exact absurd h (by decide)

theorem noLead_map_sp {w : Name} (h : noLeadSpace w) :
    noLeadSpace (w.map spaceToUnderscore) := by
  cases w with
  | nil => trivial
  | cons c t =>
    show isSpaceChar (spaceToUnderscore c) = false
    rw [spaceToUnderscore_of_not_space h]
    exact h

theorem noTrail_map_sp : ∀ w : Name, noTrailSpace w →
    noTrailSpace (w.map spaceToUnderscore)
  | [] => fun _ => trivial
  | [c] => fun h => by
    show isSpaceChar (spaceToUnderscore c) = false
    rw [spaceToUnderscore_of_not_space h]
    exact h
  | c :: d :: u => fun h => by
    have := noTrail_map_sp (d :: u) h
    exact this

theorem us_chars_fixed :
    ∀ c ∈ usSpelling, lowerChar c = c ∧ spaceToUnderscore c = c := by decide

theorem noLead_usSpelling : noLeadSpace usSpelling := rfl

theorem noTrail_usSpelling : noTrailSpace usSpelling := rfl

theorem usSpelling_ne_nil : usSpelling ≠ [] := by decide

/-- Every character of a normalised name is fixed by lower-casing and by
the space substitution. -/
theorem normName_chars (n : Name) :
    ∀ c ∈ normName n, lowerChar c = c ∧ spaceToUnderscore c = c := by
  intro c hc
  unfold normName at hc
  rcases mem_replaceAll _ _ _ c hc with hm | hus
  · obtain ⟨d, hd, hdc⟩ := List.mem_map.mp hm
    obtain ⟨e, _, hed⟩ := List.mem_map.mp (mem_trim hd)
    subst hdc
    subst hed
    exact ⟨lfixed_spaceToUnderscore (lfixed_lowerChar e),
      spaceToUnderscore_idem _⟩
  · exact us_chars_fixed c hus

theorem noLead_normName (n : Name) : noLeadSpace (normName n) :=
  noLead_replaceAll noLead_usSpelling usSpelling_ne_nil
    (noLead_map_sp (trim_noLead (n.map lowerChar)))

theorem noTrail_normName (n : Name) : noTrailSpace (normName n) :=
  noTrail_replaceAll noTrail_usSpelling usSpelling_ne_nil _
    (noTrail_map_sp _ (trim_noTrail (n.map lowerChar)))

theorem normName_idem (n : Name) : normName (normName n) = normName n := by
  have hfix := normName_chars n
  have h1 : (normName n).map lowerChar = normName n :=
    map_eq_self_of_fixed (fun c hc => (hfix c hc).1)
  have h2 : trim (normName n) = normName n :=
    trim_eq_self (noLead_normName n) (noTrail_normName n)
  have h3 : (normName n).map spaceToUnderscore = normName n :=
    map_eq_self_of_fixed (fun c hc => (hfix c hc).2)
  have h4 : replaceAll ukSpelling usSpelling (normName n) = normName n :=
    replaceAll_eq_self (normName n)
      (replaceAll_uk_good ((trim (n.map lowerChar)).map spaceToUnderscore)).1
  show replaceAll ukSpelling usSpelling
    ((trim ((normName n).map lowerChar)).map spaceToUnderscore) = normName n
  rw [h1, h2, h3, h4]

/-! ## Cells and Python float parsing -/

/-- One cell of the dataframe: a string, an exact numeric value, a float
infinity (`float("inf")`), or a null (pandas `NaN`).  All floats the
script produces are finite decimal fractions, represented exactly in `ℚ`. -/
inductive Cell where
  | str (s : Name)
  | num (q : ℚ)
  | inf (neg : Bool)
  | null
deriving DecidableEq

instance {ε α : Type} [DecidableEq ε] [DecidableEq α] :
    DecidableEq (Except ε α) := fun a b =>
  match a, b with
  | .ok x, .ok y =>
    if h : x = y then isTrue (by rw [h])
    else isFalse (fun hc => by cases hc; exact h rfl)
  | .error x, .error y =>
    if h : x = y then isTrue (by rw [h])
    else isFalse (fun hc => by cases hc; exact h rfl)
  | .ok _, .error _ => isFalse (fun hc => by cases hc)
  | .error _, .ok _ => isFalse (fun hc => by cases hc)

/-- ASCII decimal digit. -/
def isDigitChar (c : Char) : Bool := 48 ≤ c.toNat ∧ c.toNat ≤ 57

/-- ASCII letter. -/
def isAsciiAlpha (c : Char) : Bool :=
  (65 ≤ c.toNat ∧ c.toNat ≤ 90) ∨ (97 ≤ c.toNat ∧ c.toNat ≤ 122)

def digitVal (c : Char) : Nat := c.toNat - 48

def natOfDigits (ds : Name) : Nat := ds.foldl (fun a c => 10 * a + digitVal c) 0

/-- Constant-time embedding of `Nat` into `ℚ` (the library coercion is
unary and not kernel-evaluable on large numerals). -/
def ratOfNat (n : Nat) : ℚ := ⟨Int.ofNat n, 1, Nat.one_ne_zero, Nat.coprime_one_right _⟩

theorem ratOfNat_eq_cast (n : Nat) : ratOfNat n = (n : ℚ) := by
  apply Rat.ext
  · simp [ratOfNat, Rat.num_natCast]
  · simp [ratOfNat, Rat.den_natCast]

/-!
The library's rational arithmetic (`Rat.add` and friends) is
`@[irreducible]`, so terms built from it cannot be evaluated by `decide`.
The pipeline embedding therefore computes with the `mkRat`-based
operations below; each is proved equal to the library operation.
-/

def qAdd (a b : ℚ) : ℚ := mkRat (a.num * b.den + b.num * a.den) (a.den * b.den)

theorem qAdd_eq (a b : ℚ) : qAdd a b = a + b := (Rat.add_def' a b).symm

def qSub (a b : ℚ) : ℚ := mkRat (a.num * b.den - b.num * a.den) (a.den * b.den)

theorem qSub_eq (a b : ℚ) : qSub a b = a - b := (Rat.sub_def' a b).symm

def qMul (a b : ℚ) : ℚ := mkRat (a.num * b.num) (a.den * b.den)

theorem qMul_eq (a b : ℚ) : qMul a b = a * b := by
  rw [Rat.mul_def]
  unfold qMul mkRat
  rw [dif_neg (Nat.mul_ne_zero a.den_nz b.den_nz)]

def qInv (a : ℚ) : ℚ := Rat.divInt (Int.ofNat a.den) a.num

theorem qInv_eq (a : ℚ) : qInv a = a⁻¹ := (Rat.inv_def a).symm

def qDiv (a b : ℚ) : ℚ := qMul a (qInv b)

theorem qDiv_eq (a b : ℚ) : qDiv a b = a / b := by
  rw [qDiv, qMul_eq, qInv_eq, div_eq_mul_inv]

def parseExpDigits (t : Name) : Option Int :=
  if t ≠ [] ∧ t.all isDigitChar then some (Int.ofNat (natOfDigits t)) else none

/-- Exponent part of a float literal: optional sign then one or more digits. -/
def parseExp : Name → Option Int
  | [] => none
  | a :: t =>
    if a = '+' then parseExpDigits t
    else if a = '-' then (parseExpDigits t).map Int.neg
    else parseExpDigits (a :: t)

def mantissa (ip fp : Name) : ℚ :=
  qAdd (ratOfNat (natOfDigits ip))
    (qDiv (ratOfNat (natOfDigits fp)) (ratOfNat (10 ^ fp.length)))

/-- `10^k` for a signed exponent, via `Nat` powers only. -/
def powTen : Int → ℚ
  | .ofNat n => ratOfNat (10 ^ n)
  | .negSucc n => mkRat 1 (10 ^ (n + 1))

/-- What follows the fractional digits: nothing, or an exponent. -/
def parseFracTail (ip fp : Name) : Name → Option ℚ
  | [] => some (mantissa ip fp)
  | e :: r4 =>
    if e = 'e' ∨ e = 'E' then
      (parseExp r4).map (fun k => qMul (mantissa ip fp) (powTen k))
    else none

/-- The fractional-then-exponent tail of a float literal, after the dot:
`r2` is what follows the `.`, `ip` the integer-part digits. -/
def parseFrac (ip r2 : Name) : Option ℚ :=
  if ip = [] ∧ r2.takeWhile isDigitChar = [] then none
  else parseFracTail ip (r2.takeWhile isDigitChar) (r2.dropWhile isDigitChar)

/-- Unsigned decimal float literal: `digits`, `digits.`, `digits.digits`,
`.digits`, each optionally followed by `e`/`E` and an exponent. -/
def parseDec (s : Name) : Option ℚ :=
  match s.dropWhile isDigitChar with
  | [] =>
    if s.takeWhile isDigitChar = [] then none
    else some (ratOfNat (natOfDigits (s.takeWhile isDigitChar)))
  | d :: r2 =>
    if d = '.' then parseFrac (s.takeWhile isDigitChar) r2
    else if (d = 'e' ∨ d = 'E') ∧ s.takeWhile isDigitChar ≠ [] then
      (parseExp r2).map
        (fun k => qMul (ratOfNat (natOfDigits (s.takeWhile isDigitChar))) (powTen k))
    else none

def pyFloatCore (neg : Bool) (t : Name) : Option Cell :=
  let low := t.map lowerChar
  if low = "inf".data ∨ low = "infinity".data then some (.inf neg)
  else if low = "nan".data then some .null
  else (parseDec t).map (fun q => .num (if neg then -q else q))

/-- Python `float(str)`: strip surrounding whitespace, optional sign, then
either `inf`/`infinity`/`nan` (case-insensitive) or a decimal literal with
optional exponent.  `nan` becomes the null cell (it is pandas `NaN`).
Digit-group underscores (PEP 515) are not modelled; the script's data
never uses them. -/
def pyFloat (s0 : Name) : Option Cell :=
  match trim s0 with
  | [] => none
  | a :: t =>
    if a = '+' then pyFloatCore false t
    else if a = '-' then pyFloatCore true t
    else pyFloatCore false (a :: t)

/-- `clean_currency_column` cell-wise (`airbnb.py` lines 86–91): the regex
`[\$,]` deletes dollar signs and commas from string cells, then
`astype(float)` parses; a parse failure raises, aborting the run.
Non-string cells pass through `astype(float)` unchanged. -/
def stripCurrency (s : Name) : Name := s.filter (fun c => ¬ (c = '$' ∨ c = ','))

def cleanCurrencyCell : Cell → Except String Cell
  | .str s =>
    match pyFloat (stripCurrency s) with
    | some c => .ok c
    | none => .error "could not convert string to float"
  | c => .ok c

/-- `pd.to_numeric(·, errors="coerce")` cell-wise (`airbnb.py` line 110):
parseable strings become numbers, unparseable ones become null; numeric
and null cells are unchanged.  Total — it never raises. -/
def toNumericCell : Cell → Cell
  | .str s => (pyFloat s).getD .null
  | c => c

/-! ### Which letters can survive a successful float parse

A string accepted by `pyFloat` can contain letters only as part of
exponent notation (`e`/`E`) or the special tokens `inf`, `infinity`,
`nan`.  This drives the correction of the spec's "letters always fail"
clause. -/

/-- The letters that can appear in a parseable float string
(lower-cased). -/
def floatLetters : Name := ['i', 'n', 'f', 'a', 't', 'y', 'e']

theorem parseExpDigits_chars {t : Name} {k : Int}
    (h : parseExpDigits t = some k) : ∀ c ∈ t, isDigitChar c = true := by
  unfold parseExpDigits at h
  by_cases hc : t ≠ [] ∧ t.all isDigitChar
  · exact fun c hm => List.all_eq_true.mp hc.2 c hm
  · rw [if_neg hc] at h
    exact absurd h (by simp)

theorem parseExp_chars {r : Name} {k : Int} (h : parseExp r = some k) :
    ∀ c ∈ r, isDigitChar c = true ∨ c = '+' ∨ c = '-' := by
  cases r with
  | nil => intro c hc; simp at hc
  | cons a t =>
    simp only [parseExp] at h
    intro c hc
    by_cases ha : a = '+'
    · rw [if_pos ha] at h
      rcases List.mem_cons.mp hc with rfl | hct
      · exact Or.inr (Or.inl ha)
      · exact Or.inl (parseExpDigits_chars h c hct)
    · rw [if_neg ha] at h
      by_cases hb : a = '-'
      · rw [if_pos hb] at h
        rcases List.mem_cons.mp hc with rfl | hct
        · exact Or.inr (Or.inr hb)
        · obtain ⟨k', hk', _⟩ := Option.map_eq_some'.mp h
          exact Or.inl (parseExpDigits_chars hk' c hct)
      · rw [if_neg hb] at h
        exact Or.inl (parseExpDigits_chars h c hc)

theorem takeWhile_append_dropWhile_mem {p : Char → Bool} {s : Name} {c : Char}
    (hc : c ∈ s) : c ∈ s.takeWhile p ∨ c ∈ s.dropWhile p := by
  rw [← List.takeWhile_append_dropWhile (p := p) (l := s)] at hc
  exact List.mem_append.mp hc

theorem parseFrac_chars {ip r2 : Name} {q : ℚ} (h : parseFrac ip r2 = some q) :
    ∀ c ∈ r2, isDigitChar c = true ∨ c = 'e' ∨ c = 'E' ∨
      c = '+' ∨ c = '-' := by
  intro c hc
  unfold parseFrac at h
  by_cases hnil : ip = [] ∧ r2.takeWhile isDigitChar = []
  · rw [if_pos hnil] at h; exact absurd h (by simp)
  · rw [if_neg hnil] at h
    rcases takeWhile_append_dropWhile_mem (p := isDigitChar) hc with htw | hdw
    · exact Or.inl (List.mem_takeWhile_imp htw)
    · cases hd2 : r2.dropWhile isDigitChar with
      | nil => rw [hd2] at hdw; simp at hdw
      | cons e r4 =>
        rw [hd2] at hdw
        simp only [hd2, parseFracTail] at h
        by_cases he : e = 'e' ∨ e = 'E'
        · rw [if_pos he] at h
          rcases List.mem_cons.mp hdw with rfl | hr4
          · rcases he with he | he
            · exact Or.inr (Or.inl he)
            · exact Or.inr (Or.inr (Or.inl he))
          · obtain ⟨k', hk', _⟩ := Option.map_eq_some'.mp h
            rcases parseExp_chars hk' c hr4 with hh | hh | hh
            · exact Or.inl hh
            · exact Or.inr (Or.inr (Or.inr (Or.inl hh)))
            · exact Or.inr (Or.inr (Or.inr (Or.inr hh)))
        · rw [if_neg he] at h; exact absurd h (by simp)

theorem parseDec_chars {s : Name} {q : ℚ} (h : parseDec s = some q) :
    ∀ c ∈ s, isDigitChar c = true ∨ c = '.' ∨ c = 'e' ∨ c = 'E' ∨
      c = '+' ∨ c = '-' := by
  intro c hc
  rcases takeWhile_append_dropWhile_mem (p := isDigitChar) hc with htw | hdw
  · exact Or.inl (List.mem_takeWhile_imp htw)
  · cases hd : s.dropWhile isDigitChar with
    | nil => rw [hd] at hdw; simp at hdw
    | cons d r2 =>
      simp only [parseDec, hd] at h
      rw [hd] at hdw
      by_cases hdot : d = '.'
      · rw [if_pos hdot] at h
        rcases List.mem_cons.mp hdw with rfl | hr2
        · exact Or.inr (Or.inl hdot)
        · rcases parseFrac_chars h c hr2 with hh | hh | hh | hh | hh
          · exact Or.inl hh
          · exact Or.inr (Or.inr (Or.inl hh))
          · exact Or.inr (Or.inr (Or.inr (Or.inl hh)))
          · exact Or.inr (Or.inr (Or.inr (Or.inr (Or.inl hh))))
          · exact Or.inr (Or.inr (Or.inr (Or.inr (Or.inr hh))))
      · rw [if_neg hdot] at h
        by_cases he : (d = 'e' ∨ d = 'E') ∧ s.takeWhile isDigitChar ≠ []
        · rw [if_pos he] at h
          rcases List.mem_cons.mp hdw with rfl | hr2
          · rcases he.1 with hh | hh
            · exact Or.inr (Or.inr (Or.inl hh))
            · exact Or.inr (Or.inr (Or.inr (Or.inl hh)))
          · obtain ⟨k', hk', _⟩ := Option.map_eq_some'.mp h
            rcases parseExp_chars hk' c hr2 with hh | hh | hh
            · exact Or.inl hh
            · exact Or.inr (Or.inr (Or.inr (Or.inr (Or.inl hh))))
            · exact Or.inr (Or.inr (Or.inr (Or.inr (Or.inr hh))))
        · rw [if_neg he] at h; exact absurd h (by simp)

theorem digit_not_alpha {c : Char} (h : isDigitChar c = true) :
    isAsciiAlpha c = false := by
  unfold isDigitChar at h
  unfold isAsciiAlpha
  simp only [decide_eq_true_eq] at h
  simp only [decide_eq_false_iff_not]
  omega

theorem alpha_not_space {c : Char} (h : isAsciiAlpha c = true) :
    isSpaceChar c = false := by
  by_contra hc
  have hs : isSpaceChar c = true := by
    cases hh : isSpaceChar c
    · exact absurd hh hc
    · rfl
  unfold isSpaceChar at hs
  simp only [Bool.or_eq_true, decide_eq_true_eq] at hs
  rcases hs with ((((rfl | rfl) | rfl) | rfl) | rfl) | rfl <;>
    exact absurd h (by decide)

theorem mem_trimRight_of_not_space {c : Char} :
    ∀ {s : Name}, c ∈ s → isSpaceChar c = false → c ∈ trimRight s := by
  intro s
  induction s with
  | nil => intro hc _; simp at hc
  | cons x u ih =>
    intro hc hns
    have hunf : trimRight (x :: u) =
        (match trimRight u with
         | [] => if isSpaceChar x = true then [] else [x]
         | r => x :: r) := rfl
    rcases List.mem_cons.mp hc with rfl | hcu
    · rw [hunf]
      cases hu : trimRight u with
      | nil => rw [hns]; simp
      | cons d r => exact List.mem_cons_self _ _
    · have hmem := ih hcu hns
      rw [hunf]
      cases hu : trimRight u with
      | nil => rw [hu] at hmem; simp at hmem
      | cons d r => rw [hu] at hmem; exact List.mem_cons_of_mem x hmem

theorem mem_trim_of_not_space {c : Char} {s : Name} (hc : c ∈ s)
    (hns : isSpaceChar c = false) : c ∈ trim s := by
  unfold trim trimLeft
  apply mem_trimRight_of_not_space _ hns
  rcases takeWhile_append_dropWhile_mem (p := isSpaceChar) hc with htw | hdw
  · have := List.mem_takeWhile_imp htw
    rw [hns] at this
    exact absurd this (by simp)
  · exact hdw

theorem pyFloatCore_letters {neg : Bool} {t : Name} {v : Cell}
    (h : pyFloatCore neg t = some v) :
    ∀ c ∈ t, isAsciiAlpha c = true → lowerChar c ∈ floatLetters := by
  intro c hc halpha
  unfold pyFloatCore at h
  by_cases hinf : t.map lowerChar = "inf".data ∨ t.map lowerChar = "infinity".data
  · have hmem : lowerChar c ∈ t.map lowerChar := List.mem_map_of_mem lowerChar hc
    rcases hinf with hl | hl
    · rw [hl] at hmem
      have hsub : ∀ x ∈ ("inf".data : Name), x ∈ floatLetters := by decide
      exact hsub _ hmem
    · rw [hl] at hmem
      have hsub : ∀ x ∈ ("infinity".data : Name), x ∈ floatLetters := by decide
      exact hsub _ hmem
  · rw [if_neg hinf] at h
    by_cases hnan : t.map lowerChar = "nan".data
    · have hmem : lowerChar c ∈ t.map lowerChar := List.mem_map_of_mem lowerChar hc
      rw [hnan] at hmem
      have hsub : ∀ x ∈ ("nan".data : Name), x ∈ floatLetters := by decide
      exact hsub _ hmem
    · rw [if_neg hnan] at h
      obtain ⟨q, hq, _⟩ := Option.map_eq_some'.mp h
      rcases parseDec_chars hq c hc with hh | hh | hh | hh | hh | hh
      · rw [digit_not_alpha hh] at halpha
        simp at halpha
      · subst hh; exact absurd halpha (by decide)
      · subst hh; decide
      · subst hh; decide
      · subst hh; exact absurd halpha (by decide)
      · subst hh; exact absurd halpha (by decide)

theorem pyFloat_letters {s : Name} {v : Cell} (h : pyFloat s = some v) :
    ∀ c ∈ s, isAsciiAlpha c = true → lowerChar c ∈ floatLetters := by
  intro c hc halpha
  have hct : c ∈ trim s := mem_trim_of_not_space hc (alpha_not_space halpha)
  cases ht : trim s with
  | nil => rw [ht] at hct; simp at hct
  | cons a t =>
    simp only [pyFloat, ht] at h
    rw [ht] at hct
    by_cases ha : a = '+'
    · rw [if_pos ha] at h
      rcases List.mem_cons.mp hct with rfl | hcc
      · rw [ha] at halpha; exact absurd halpha (by decide)
      · exact pyFloatCore_letters h c hcc halpha
    · rw [if_neg ha] at h
      by_cases hb : a = '-'
      · rw [if_pos hb] at h
        rcases List.mem_cons.mp hct with rfl | hcc
        · rw [hb] at halpha; exact absurd halpha (by decide)
        · exact pyFloatCore_letters h c hcc halpha
      · rw [if_neg hb] at h
        exact pyFloatCore_letters h c hct halpha

/-! ## The dataframe and the pipeline

A pandas frame is a list of column labels plus positionally aligned rows.
Each script step below is named `step…` (mutating) or `check…`
(read-only but able to raise).  Read-only steps that can never raise —
the missing-value audit (line 68), the `room_type` distribution
(lines 134–136), the listings-per-construction-year chart (lines
202–210), and the review-rate scatter block (lines 224–258) — do not
appear in the `Except` chain; they neither mutate the frame nor fail. -/

structure Table where
  cols : List Name
  rows : List (List Cell)
deriving DecidableEq

/-- Position of the (first) column with the given label. -/
def colIdx : List Name → Name → Option Nat
  | [], _ => none
  | c :: t, n => if c = n then some 0 else (colIdx t n).map (· + 1)

/-- The cell of a positional row at column index `i` (`null` if the row
is too short, which a rectangular frame never is). -/
def cellAt (r : List Cell) (i : Nat) : Cell := r.getD i .null

/-- The values of the column labelled `n`, if present. -/
def getCol (t : Table) (n : Name) : Option (List Cell) :=
  (colIdx t.cols n).map (fun i => t.rows.map (fun r => cellAt r i))

/-- `df[n] = <row-wise value>`: overwrite the column if the label
exists, else append it on the right (as pandas does). -/
def setColWith (t : Table) (n : Name) (f : List Cell → Cell) : Table :=
  match colIdx t.cols n with
  | some i => ⟨t.cols, t.rows.map (fun r => r.set i (f r))⟩
  | none => ⟨t.cols ++ [n], t.rows.map (fun r => r ++ [f r])⟩

/-- Rectangularity: every row has one cell per column (true of any frame
read from a CSV). -/
def WF (t : Table) : Prop := ∀ r ∈ t.rows, r.length = t.cols.length

instance (t : Table) : Decidable (WF t) := by unfold WF; infer_instance

/-- Step 3 (lines 42–48): normalise the headers. -/
def stepNormalize (t : Table) : Table := ⟨t.cols.map normName, t.rows⟩

/-- The identifier columns dropped at line 57. -/
def columnsToDrop : List Name :=
  ["host_id".data, "id".data, "country".data, "country_code".data]

def dropRow : List Name → List Cell → List Cell
  | [], _ => []
  | _ :: _, [] => []
  | n :: ns, c :: cs =>
    if n ∈ columnsToDrop then dropRow ns cs else c :: dropRow ns cs

/-- Step 4 (line 59): drop the fixed identifier columns when present;
absent ones are silently skipped by the list comprehension. -/
def stepDropCols (t : Table) : Table :=
  ⟨t.cols.filter (fun n => ¬ n ∈ columnsToDrop), t.rows.map (dropRow t.cols)⟩

/-- First-occurrence deduplication (`df.drop_duplicates()`, line 76),
with an accumulator of already seen values to keep it structural. -/
def dedupAux {α : Type} [DecidableEq α] : List α → List α → List α
  | _, [] => []
  | seen, x :: xs =>
    if x ∈ seen then dedupAux seen xs else x :: dedupAux (x :: seen) xs

def dedupFirst {α : Type} [DecidableEq α] (l : List α) : List α := dedupAux [] l

/-- Step 6 (line 76): drop exact duplicate rows, keeping the first. -/
def stepDedup (t : Table) : Table := ⟨t.cols, dedupFirst t.rows⟩

/-- Parse one monetary column; the first failing cell aborts
(`astype(float)` raises on the whole column). -/
def cleanCurrencyRows (i : Nat) : List (List Cell) → Except String (List (List Cell))
  | [] => .ok []
  | r :: rs =>
    match cleanCurrencyCell (cellAt r i) with
    | .error e => .error e
    | .ok v =>
      match cleanCurrencyRows i rs with
      | .error e => .error e
      | .ok rs' => .ok (r.set i v :: rs')

def cleanColE (t : Table) (n : Name) : Except String Table :=
  match colIdx t.cols n with
  | some i => (cleanCurrencyRows i t.rows).map (fun rs => Table.mk t.cols rs)
  | none => .ok t

/-- Step 7a (lines 93–97): currency-normalise `price` and `service_fee`,
each guarded by a presence check. -/
def stepCurrency (t : Table) : Except String Table :=
  match cleanColE t "price".data with
  | .error e => .error e
  | .ok t1 => cleanColE t1 "service_fee".data

/-- The fixed list of columns coerced at lines 100–110. -/
def numericColumns : List Name :=
  ["review_rate_number".data, "number_of_reviews".data,
   "reviews_per_month".data, "construction_year".data,
   "availability_365".data]

/-- Apply `f` to each cell of column `n`; skip if the column is absent. -/
def mapColAt (t : Table) (n : Name) (f : Cell → Cell) : Table :=
  match colIdx t.cols n with
  | some i => ⟨t.cols, t.rows.map (fun r => r.set i (f (cellAt r i)))⟩
  | none => t

def toNumericAux : List Name → Table → Table
  | [], t => t
  | n :: ns, t => toNumericAux ns (mapColAt t n toNumericCell)

/-- Step 7b (lines 108–110): `pd.to_numeric(errors="coerce")` on each
listed column that is present. -/
def stepToNumeric (t : Table) : Table := toNumericAux numericColumns t

def daysBookedOf : Cell → Cell
  | .num q => .num (qSub (ratOfNat 365) q)
  | _ => .null

/-- Step 8a (lines 120–121): `days_booked = 365 - availability_365`,
guarded on the presence of `availability_365`; after step 7b that column
holds only numbers and nulls, and `365 - NaN` is `NaN`. -/
def stepDaysBooked (t : Table) : Table :=
  match colIdx t.cols "availability_365".data with
  | some i => setColWith t "days_booked".data (fun r => daysBookedOf (cellAt r i))
  | none => t

/-- `"Superhost" if str(x).lower() == "t" else "Regular Host"` and its
step-13 twin: only a string cell whose lower-casing is exactly `t` maps
to the positive label (`str(x)` of a number or `NaN` is never `"t"`). -/
def superCell (pos neg : Name) : Cell → Cell
  | .str s => if s.map lowerChar = ['t'] then .str pos else .str neg
  | _ => .str neg

/-- Step 8b (lines 124–127): the first `is_superhost` derivation, from
`host_is_superhost`, guarded. -/
def stepSuperhost1 (t : Table) : Table :=
  match colIdx t.cols "host_is_superhost".data with
  | some i =>
    setColWith t "is_superhost".data
      (fun r => superCell "Superhost".data "Regular Host".data (cellAt r i))
  | none => t

def isStrictCell : Cell → Bool
  | .str s => s.map lowerChar = "strict".data
  | _ => false

/-- `value_counts()` excludes nulls; only the multiset of non-null
values matters for the claims, so no sort order is imposed here. -/
def valueCounts (cells : List Cell) : List (Cell × Nat) :=
  (dedupFirst (cells.filter (fun c => c ≠ Cell.null))).map
    (fun v => (v, (cells.filter (fun c => c ≠ Cell.null)).count v))

/-- Step 9b (lines 139–145): most common room type under a strict
cancellation policy.  `idxmax()` on an empty `value_counts()` raises. -/
def checkStrictRoom (t : Table) : Except String Unit :=
  match colIdx t.cols "cancellation_policy".data,
      colIdx t.cols "room_type".data with
  | some ic, some ir =>
    let strictRows := t.rows.filter (fun r => isStrictCell (cellAt r ic))
    if valueCounts (strictRows.map (fun r => cellAt r ir)) = [] then
      .error "ValueError: attempt to get argmax of an empty sequence"
    else .ok ()
  | _, _ => .ok ()

/-- Step 9c (lines 148–151): `df.groupby("neighborhood_group")["price"]`
is guarded on `neighborhood_group` but not on `price`. -/
def checkAvgGroup (t : Table) : Except String Unit :=
  match colIdx t.cols "neighborhood_group".data with
  | some _ =>
    match colIdx t.cols "price".data with
    | some _ => .ok ()
    | none => .error "KeyError: price"
  | none => .ok ()

/-- Step 10 (lines 157–196): the whole block is guarded on
`neighborhood`, but inside it `price` (groupby, line 160), `room_type`
(boxplot, line 191) and `service_fee` (scatter, line 195) are accessed
unconditionally. -/
def checkNeighborhood (t : Table) : Except String Unit :=
  match colIdx t.cols "neighborhood".data with
  | some _ =>
    match colIdx t.cols "price".data with
    | none => .error "KeyError: price"
    | some _ =>
      match colIdx t.cols "room_type".data with
      | none => .error "ValueError: could not interpret value room_type"
      | some _ =>
        match colIdx t.cols "service_fee".data with
        | none => .error "ValueError: could not interpret value service_fee"
        | some _ => .ok ()
  | none => .ok ()

/-- Line 220: `sns.boxplot(x="review_rate_number", y="price", data=df)`
with no guard at all. -/
def checkReviewBoxplot (t : Table) : Except String Unit :=
  match colIdx t.cols "review_rate_number".data with
  | none => .error "ValueError: could not interpret value review_rate_number"
  | some _ =>
    match colIdx t.cols "price".data with
    | none => .error "ValueError: could not interpret value price"
    | some _ => .ok ()

/-- Step 13 (lines 264–266): the second `is_superhost` derivation, from
`host_identity_verified`, with **no** presence guard — a missing column
raises `KeyError` here. -/
def stepSuperhost2 (t : Table) : Except String Table :=
  match colIdx t.cols "host_identity_verified".data with
  | some i =>
    .ok (setColWith t "is_superhost".data
      (fun r => superCell "Verified Host".data "Non-Verified Host".data (cellAt r i)))
  | none => .error "KeyError: host_identity_verified"

/-- Lines 269–278: two unguarded boxplots against the relabelled
`is_superhost`. -/
def checkHostBoxplots (t : Table) : Except String Unit :=
  match colIdx t.cols "is_superhost".data with
  | none => .error "ValueError: could not interpret value is_superhost"
  | some _ =>
    match colIdx t.cols "number_of_reviews".data with
    | none => .error "ValueError: could not interpret value number_of_reviews"
    | some _ =>
      match colIdx t.cols "reviews_per_month".data with
      | none => .error "ValueError: could not interpret value reviews_per_month"
      | some _ => .ok ()

/-- The whole run, from the raw frame to the exported table (step 14
writes the frame unchanged). -/
def runPipeline (t : Table) : Except String Table :=
  match stepCurrency (stepDedup (stepDropCols (stepNormalize t))) with
  | .error e => .error e
  | .ok t4 =>
    let t7 := stepSuperhost1 (stepDaysBooked (stepToNumeric t4))
    match checkStrictRoom t7 with
    | .error e => .error e
    | .ok _ =>
      match checkAvgGroup t7 with
      | .error e => .error e
      | .ok _ =>
        match checkNeighborhood t7 with
        | .error e => .error e
        | .ok _ =>
          match checkReviewBoxplot t7 with
          | .error e => .error e
          | .ok _ =>
            match stepSuperhost2 t7 with
            | .error e => .error e
            | .ok t8 =>
              match checkHostBoxplots t8 with
              | .error e => .error e
              | .ok _ => .ok t8

/-! ### Basic lemmas about the frame operations -/

theorem colIdx_eq_none_iff {cols : List Name} {n : Name} :
    colIdx cols n = none ↔ n ∉ cols := by
  induction cols with
  | nil => simp [colIdx]
  | cons c t ih =>
    simp only [colIdx, List.mem_cons]
    by_cases h : c = n
    · simp [h]
    · simp only [if_neg h, Option.map_eq_none', ih]
      constructor
      · intro hn
        intro hc
        rcases hc with hc | hc
        · exact h hc.symm
        · exact hn hc
      · intro hn
        exact fun hc => hn (Or.inr hc)

theorem colIdx_isSome_of_mem {cols : List Name} {n : Name} (h : n ∈ cols) :
    ∃ i, colIdx cols n = some i := by
  cases hc : colIdx cols n with
  | none => exact absurd h (colIdx_eq_none_iff.mp hc)
  | some i => exact ⟨i, rfl⟩

theorem mem_of_colIdx_eq_some {cols : List Name} {n : Name} {i : Nat}
    (h : colIdx cols n = some i) : n ∈ cols := by
  by_contra hn
  rw [colIdx_eq_none_iff.mpr hn] at h
  exact absurd h (by simp)

theorem colIdx_lt_length {cols : List Name} {n : Name} {i : Nat}
    (h : colIdx cols n = some i) : i < cols.length := by
  induction cols generalizing i with
  | nil => simp [colIdx] at h
  | cons c t ih =>
    simp only [colIdx] at h
    by_cases hc : c = n
    · rw [if_pos hc] at h
      cases h
      simp
    · rw [if_neg hc] at h
      obtain ⟨j, hj, hji⟩ := Option.map_eq_some'.mp h
      subst hji
      simpa using ih hj

theorem colIdx_inj {cols : List Name} {n m : Name} {i : Nat}
    (hn : colIdx cols n = some i) (hm : colIdx cols m = some i) : n = m := by
  induction cols generalizing i with
  | nil => simp [colIdx] at hn
  | cons c t ih =>
    simp only [colIdx] at hn hm
    by_cases hcn : c = n
    · by_cases hcm : c = m
      · rw [← hcn, hcm]
      · rw [if_pos hcn] at hn
        rw [if_neg hcm] at hm
        cases hn
        obtain ⟨j, _, hji⟩ := Option.map_eq_some'.mp hm
        exact absurd hji (by simp)
    · by_cases hcm : c = m
      · rw [if_neg hcn] at hn
        rw [if_pos hcm] at hm
        cases hm
        obtain ⟨j, _, hji⟩ := Option.map_eq_some'.mp hn
        exact absurd hji (by simp)
      · rw [if_neg hcn] at hn
        rw [if_neg hcm] at hm
        obtain ⟨jn, hjn, hjni⟩ := Option.map_eq_some'.mp hn
        obtain ⟨jm, hjm, hjmi⟩ := Option.map_eq_some'.mp hm
        have : jn = jm := by omega
        subst this
        exact ih hjn hjm

theorem colIdx_append_of_mem {cols : List Name} {n : Name} (h : n ∈ cols)
    (l : List Name) : colIdx (cols ++ l) n = colIdx cols n := by
  induction cols with
  | nil => simp at h
  | cons c t ih =>
    simp only [List.cons_append, colIdx, List.append_eq]
    by_cases hc : c = n
    · rw [if_pos hc, if_pos hc]
    · rw [if_neg hc, if_neg hc,
        ih (by rcases List.mem_cons.mp h with h | h; exact absurd h.symm hc; exact h)]

theorem colIdx_append_self {cols : List Name} {n : Name} (h : n ∉ cols) :
    colIdx (cols ++ [n]) n = some cols.length := by
  induction cols with
  | nil => simp [colIdx]
  | cons c t ih =>
    simp only [List.cons_append, colIdx, List.append_eq]
    rw [if_neg (fun hc : c = n =>
        h (by rw [← hc]; exact List.mem_cons_self c t)),
      ih (fun hc => h (List.mem_cons_of_mem c hc))]
    simp

theorem cellAt_set_self {r : List Cell} {i : Nat} {v : Cell}
    (h : i < r.length) : cellAt (r.set i v) i = v := by
  unfold cellAt
  rw [List.getD_eq_getElem?_getD, List.getElem?_set_self (by simpa using h)]
  rfl

theorem cellAt_set_other {r : List Cell} {i j : Nat} {v : Cell}
    (h : i ≠ j) : cellAt (r.set i v) j = cellAt r j := by
  unfold cellAt
  rw [List.getD_eq_getElem?_getD, List.getElem?_set_ne h,
    List.getD_eq_getElem?_getD]

theorem cellAt_append_lt {r l : List Cell} {j : Nat} (h : j < r.length) :
    cellAt (r ++ l) j = cellAt r j := by
  unfold cellAt
  rw [List.getD_eq_getElem?_getD, List.getElem?_append_left h,
    List.getD_eq_getElem?_getD]

theorem cellAt_append_self {r : List Cell} {v : Cell} :
    cellAt (r ++ [v]) r.length = v := by
  unfold cellAt
  rw [List.getD_eq_getElem?_getD, List.getElem?_append_right (Nat.le_refl _)]
  simp

theorem rows_length_setColWith (t : Table) (n : Name) (f : List Cell → Cell) :
    (setColWith t n f).rows.length = t.rows.length := by
  unfold setColWith
  cases colIdx t.cols n <;> simp

theorem WF_setColWith {t : Table} (h : WF t) (n : Name) (f : List Cell → Cell) :
    WF (setColWith t n f) := by
  unfold setColWith
  cases hc : colIdx t.cols n with
  | some i =>
    intro r hr
    simp only [List.mem_map] at hr
    obtain ⟨r0, hr0, hrr⟩ := hr
    subst hrr
    simp [h r0 hr0]
  | none =>
    intro r hr
    simp only [List.mem_map] at hr
    obtain ⟨r0, hr0, hrr⟩ := hr
    subst hrr
    simp [h r0 hr0]

theorem getCol_setColWith_self {t : Table} (h : WF t) (n : Name)
    (f : List Cell → Cell) :
    getCol (setColWith t n f) n = some (t.rows.map f) := by
  unfold setColWith getCol
  cases hc : colIdx t.cols n with
  | some i =>
    simp only [hc, Option.map_some', Option.some.injEq, List.map_map]
    apply List.map_congr_left
    intro r hr
    have hlen : r.length = t.cols.length := h r hr
    exact cellAt_set_self (hlen ▸ colIdx_lt_length hc)
  | none =>
    have hmem : n ∉ t.cols := colIdx_eq_none_iff.mp hc
    simp only [colIdx_append_self hmem, Option.map_some', Option.some.injEq,
      List.map_map]
    apply List.map_congr_left
    intro r hr
    have hlen : r.length = t.cols.length := h r hr
    show cellAt (r ++ [f r]) t.cols.length = f r
    rw [← hlen]
    exact cellAt_append_self

theorem getCol_setColWith_other {t : Table} (h : WF t) {n m : Name}
    (hne : m ≠ n) (hm : m ∈ t.cols) (f : List Cell → Cell) :
    getCol (setColWith t n f) m = getCol t m := by
  unfold setColWith getCol
  obtain ⟨j, hj⟩ := colIdx_isSome_of_mem hm
  cases hc : colIdx t.cols n with
  | some i =>
    have hij : i ≠ j := by
      intro hij
      subst hij
      exact hne (colIdx_inj hj hc)
    simp only [hj, Option.map_some', Option.some.injEq, List.map_map]
    apply List.map_congr_left
    intro r _
    exact cellAt_set_other hij
  | none =>
    rw [colIdx_append_of_mem hm [n], hj]
    simp only [Option.map_some', Option.some.injEq, List.map_map]
    apply List.map_congr_left
    intro r hr
    have hlen : r.length = t.cols.length := h r hr
    exact cellAt_append_lt (hlen ▸ colIdx_lt_length hj)

/-! ### Duplicate removal -/

theorem mem_dedupAux {α : Type} [DecidableEq α] :
    ∀ (seen l : List α) (x : α), x ∈ dedupAux seen l ↔ x ∈ l ∧ x ∉ seen := by
  intro seen l
  induction l generalizing seen with
  | nil => intro x; simp [dedupAux]
  | cons y ys ih =>
    intro x
    unfold dedupAux
    by_cases hy : y ∈ seen
    · rw [if_pos hy, ih seen x]
      constructor
      · exact fun ⟨h1, h2⟩ => ⟨List.mem_cons_of_mem y h1, h2⟩
      · rintro ⟨h1, h2⟩
        rcases List.mem_cons.mp h1 with rfl | h1
        · exact absurd hy h2
        · exact ⟨h1, h2⟩
    · rw [if_neg hy]
      constructor
      · intro hx
        rcases List.mem_cons.mp hx with rfl | hx
        · exact ⟨List.mem_cons_self x ys, hy⟩
        · obtain ⟨h1, h2⟩ := (ih (y :: seen) x).mp hx
          exact ⟨List.mem_cons_of_mem y h1,
            fun hc => h2 (List.mem_cons_of_mem y hc)⟩
      · rintro ⟨h1, h2⟩
        rcases List.mem_cons.mp h1 with rfl | h1
        · exact List.mem_cons_self x _
        · by_cases hxy : x = y
          · subst hxy; exact List.mem_cons_self x _
          · exact List.mem_cons_of_mem y ((ih (y :: seen) x).mpr
              ⟨h1, fun hc => by
                rcases List.mem_cons.mp hc with hc | hc
                · exact hxy hc
                · exact h2 hc⟩)

theorem dedupAux_sublist {α : Type} [DecidableEq α] :
    ∀ (seen l : List α), List.Sublist (dedupAux seen l) l := by
  intro seen l
  induction l generalizing seen with
  | nil => exact List.Sublist.refl []
  | cons y ys ih =>
    unfold dedupAux
    by_cases hy : y ∈ seen
    · rw [if_pos hy]
      exact List.Sublist.cons y (ih seen)
    · rw [if_neg hy]
      exact List.Sublist.cons₂ y (ih (y :: seen))

theorem nodup_dedupAux {α : Type} [DecidableEq α] :
    ∀ (seen l : List α), (dedupAux seen l).Nodup := by
  intro seen l
  induction l generalizing seen with
  | nil => exact List.nodup_nil
  | cons y ys ih =>
    unfold dedupAux
    by_cases hy : y ∈ seen
    · rw [if_pos hy]; exact ih seen
    · rw [if_neg hy]
      refine List.Nodup.cons ?_ (ih (y :: seen))
      intro hc
      exact ((mem_dedupAux _ _ _).mp hc).2 (List.mem_cons_self y seen)

theorem dedupAux_eq_self {α : Type} [DecidableEq α] :
    ∀ {seen l : List α}, l.Nodup → (∀ x ∈ l, x ∉ seen) →
      dedupAux seen l = l := by
  intro seen l
  induction l generalizing seen with
  | nil => intro _ _; rfl
  | cons y ys ih =>
    intro hnd hdisj
    unfold dedupAux
    rw [if_neg (hdisj y (List.mem_cons_self y ys)),
      ih (List.Nodup.of_cons hnd)]
    intro x hx hc
    rcases List.mem_cons.mp hc with rfl | hc
    · exact (List.nodup_cons.mp hnd).1 hx
    · exact hdisj x (List.mem_cons_of_mem y hx) hc

theorem dedupFirst_sublist {α : Type} [DecidableEq α] (l : List α) :
    List.Sublist (dedupFirst l) l := dedupAux_sublist [] l

theorem dedupFirst_length_le {α : Type} [DecidableEq α] (l : List α) :
    (dedupFirst l).length ≤ l.length := (dedupFirst_sublist l).length_le

theorem dedupFirst_idem {α : Type} [DecidableEq α] (l : List α) :
    dedupFirst (dedupFirst l) = dedupFirst l :=
  dedupAux_eq_self (nodup_dedupAux [] l) (by simp)

/-! ### How each step treats columns, row count and rectangularity -/

theorem WF_stepNormalize {t : Table} (h : WF t) : WF (stepNormalize t) := by
  intro r hr
  simpa [stepNormalize] using h r hr

theorem dropRow_length :
    ∀ (cols : List Name) (r : List Cell), r.length = cols.length →
      (dropRow cols r).length =
        (cols.filter (fun n => ¬ n ∈ columnsToDrop)).length := by
  intro cols
  induction cols with
  | nil =>
    intro r hr
    rw [List.length_eq_zero.mp hr]
    rfl
  | cons n ns ih =>
    intro r hr
    cases r with
    | nil => simp at hr
    | cons c cs =>
      simp only [List.length_cons] at hr
      unfold dropRow
      by_cases hn : n ∈ columnsToDrop
      · rw [if_pos hn]
        simp only [List.filter_cons, decide_not]
        rw [show (decide (n ∈ columnsToDrop)) = true by simpa using hn]
        simpa using ih cs (by omega)
      · rw [if_neg hn]
        simp only [List.filter_cons, decide_not]
        rw [show (decide (n ∈ columnsToDrop)) = false by simpa using hn]
        simpa using ih cs (by omega)

theorem WF_stepDropCols {t : Table} (h : WF t) : WF (stepDropCols t) := by
  intro r hr
  simp only [stepDropCols, List.mem_map] at hr
  obtain ⟨r0, hr0, hrr⟩ := hr
  subst hrr
  exact dropRow_length t.cols r0 (h r0 hr0)

theorem WF_stepDedup {t : Table} (h : WF t) : WF (stepDedup t) := by
  intro r hr
  exact h r ((dedupFirst_sublist t.rows).mem hr)

theorem cleanCurrencyRows_ok {i : Nat} :
    ∀ {rows rows' : List (List Cell)},
      cleanCurrencyRows i rows = .ok rows' →
      rows' = rows.map
        (fun r => r.set i ((cleanCurrencyCell (cellAt r i)).toOption.getD .null)) := by
  intro rows
  induction rows with
  | nil =>
    intro rows' h
    cases h
    rfl
  | cons r rs ih =>
    intro rows' h
    unfold cleanCurrencyRows at h
    cases hcell : cleanCurrencyCell (cellAt r i) with
    | error e => rw [hcell] at h; exact absurd h (by simp)
    | ok v =>
      rw [hcell] at h
      cases hrec : cleanCurrencyRows i rs with
      | error e => rw [hrec] at h; exact absurd h (by simp)
      | ok rs' =>
        rw [hrec] at h
        cases h
        rw [ih hrec]
        simp [hcell, Except.toOption]

theorem cleanColE_ok_cols {t t' : Table} {n : Name}
    (h : cleanColE t n = .ok t') : t'.cols = t.cols := by
  unfold cleanColE at h
  cases hc : colIdx t.cols n with
  | some i =>
    simp only [hc] at h
    cases hcr : cleanCurrencyRows i t.rows with
    | error e =>
      rw [hcr] at h
      exact absurd h (by simp [Except.map])
    | ok rs =>
      rw [hcr] at h
      simp only [Except.map, Except.ok.injEq] at h
      rw [← h]
  | none =>
    simp only [hc] at h
    cases h
    rfl

theorem cleanColE_ok_skip {t t' : Table} {n : Name}
    (hc : colIdx t.cols n = none) (h : cleanColE t n = .ok t') : t' = t := by
  unfold cleanColE at h
  simp only [hc] at h
  cases h
  rfl

theorem cleanColE_ok_rows_map {t t' : Table} {n : Name} {i : Nat}
    (hc : colIdx t.cols n = some i) (h : cleanColE t n = .ok t') :
    t'.rows = t.rows.map
      (fun r => r.set i ((cleanCurrencyCell (cellAt r i)).toOption.getD .null)) := by
  unfold cleanColE at h
  simp only [hc] at h
  cases hcr : cleanCurrencyRows i t.rows with
  | error e =>
    rw [hcr] at h
    exact absurd h (by simp [Except.map])
  | ok rs =>
    rw [hcr] at h
    simp only [Except.map, Except.ok.injEq] at h
    rw [← h]
    exact cleanCurrencyRows_ok hcr

theorem cleanColE_rows_length {t t' : Table} {n : Name}
    (h : cleanColE t n = .ok t') : t'.rows.length = t.rows.length := by
  cases hc : colIdx t.cols n with
  | some i => rw [cleanColE_ok_rows_map hc h]; simp
  | none => rw [cleanColE_ok_skip hc h]

theorem WF_cleanColE {t t' : Table} (hwf : WF t) {n : Name}
    (h : cleanColE t n = .ok t') : WF t' := by
  cases hc : colIdx t.cols n with
  | some i =>
    intro r hr
    rw [cleanColE_ok_rows_map hc h] at hr
    simp only [List.mem_map] at hr
    obtain ⟨r0, hr0, hrr⟩ := hr
    subst hrr
    rw [cleanColE_ok_cols h]
    simp [hwf r0 hr0]
  | none => rw [cleanColE_ok_skip hc h]; exact hwf

theorem getCol_cleanColE_other {t t' : Table} {n m : Name} (hne : m ≠ n)
    (h : cleanColE t n = .ok t') : getCol t' m = getCol t m := by
  cases hc : colIdx t.cols n with
  | none => rw [cleanColE_ok_skip hc h]
  | some i =>
    unfold getCol
    rw [cleanColE_ok_cols h, cleanColE_ok_rows_map hc h]
    cases hm : colIdx t.cols m with
    | none => rfl
    | some j =>
      have hij : i ≠ j := by
        intro hij
        subst hij
        exact hne (colIdx_inj hm hc)
      simp only [Option.map_some', Option.some.injEq, List.map_map]
      apply List.map_congr_left
      intro r _
      exact cellAt_set_other hij

theorem stepCurrency_ok_cols {t t' : Table} (h : stepCurrency t = .ok t') :
    t'.cols = t.cols := by
  unfold stepCurrency at h
  cases h1 : cleanColE t "price".data with
  | error e => rw [h1] at h; exact absurd h (by simp)
  | ok t1 =>
    rw [h1] at h
    rw [cleanColE_ok_cols h, cleanColE_ok_cols h1]

theorem stepCurrency_rows_length {t t' : Table} (h : stepCurrency t = .ok t') :
    t'.rows.length = t.rows.length := by
  unfold stepCurrency at h
  cases h1 : cleanColE t "price".data with
  | error e => rw [h1] at h; exact absurd h (by simp)
  | ok t1 =>
    rw [h1] at h
    rw [cleanColE_rows_length h, cleanColE_rows_length h1]

theorem WF_stepCurrency {t t' : Table} (hwf : WF t)
    (h : stepCurrency t = .ok t') : WF t' := by
  unfold stepCurrency at h
  cases h1 : cleanColE t "price".data with
  | error e => rw [h1] at h; exact absurd h (by simp)
  | ok t1 =>
    rw [h1] at h
    exact WF_cleanColE (WF_cleanColE hwf h1) h

theorem getCol_stepCurrency_other {t t' : Table} {m : Name}
    (h1 : m ≠ "price".data) (h2 : m ≠ "service_fee".data)
    (h : stepCurrency t = .ok t') : getCol t' m = getCol t m := by
  unfold stepCurrency at h
  cases hp : cleanColE t "price".data with
  | error e => rw [hp] at h; exact absurd h (by simp)
  | ok t1 =>
    rw [hp] at h
    rw [getCol_cleanColE_other h2 h, getCol_cleanColE_other h1 hp]

theorem mapColAt_cols (t : Table) (n : Name) (f : Cell → Cell) :
    (mapColAt t n f).cols = t.cols := by
  unfold mapColAt
  cases colIdx t.cols n <;> rfl

theorem mapColAt_rows_length (t : Table) (n : Name) (f : Cell → Cell) :
    (mapColAt t n f).rows.length = t.rows.length := by
  unfold mapColAt
  cases colIdx t.cols n <;> simp

theorem WF_mapColAt {t : Table} (hwf : WF t) (n : Name) (f : Cell → Cell) :
    WF (mapColAt t n f) := by
  unfold mapColAt
  cases colIdx t.cols n with
  | some i =>
    intro r hr
    simp only [List.mem_map] at hr
    obtain ⟨r0, hr0, hrr⟩ := hr
    subst hrr
    simp [hwf r0 hr0]
  | none => exact hwf

theorem getCol_mapColAt_other {t : Table} {n m : Name} (hne : m ≠ n)
    (f : Cell → Cell) : getCol (mapColAt t n f) m = getCol t m := by
  unfold mapColAt getCol
  cases hc : colIdx t.cols n with
  | none => rfl
  | some i =>
    cases hm : colIdx t.cols m with
    | none => rfl
    | some j =>
      have hij : i ≠ j := by
        intro hij
        subst hij
        exact hne (colIdx_inj hm hc)
      simp only [Option.map_some', Option.some.injEq, List.map_map]
      apply List.map_congr_left
      intro r _
      exact cellAt_set_other hij

theorem cellAt_set_apply {r : List Cell} {i : Nat} {f : Cell → Cell}
    (hf : f .null = .null) :
    cellAt (r.set i (f (cellAt r i))) i = f (cellAt r i) := by
  by_cases h : i < r.length
  · exact cellAt_set_self h
  · rw [List.set_eq_of_length_le (by omega)]
    have : cellAt r i = .null := by
      unfold cellAt
      rw [List.getD_eq_getElem?_getD, List.getElem?_eq_none (by omega)]
      rfl
    rw [this, hf]

theorem getCol_mapColAt_self {t : Table} {n : Name} {f : Cell → Cell}
    (hf : f .null = .null) :
    getCol (mapColAt t n f) n = (getCol t n).map (List.map f) := by
  unfold mapColAt getCol
  cases hc : colIdx t.cols n with
  | none => simp [hc]
  | some i =>
    simp only [hc, Option.map_some', Option.some.injEq, List.map_map]
    apply List.map_congr_left
    intro r _
    exact cellAt_set_apply hf

theorem toNumericAux_cols : ∀ (ns : List Name) (t : Table),
    (toNumericAux ns t).cols = t.cols
  | [], _ => rfl
  | n :: ns, t => by
    rw [show toNumericAux (n :: ns) t = toNumericAux ns (mapColAt t n toNumericCell) from rfl,
      toNumericAux_cols ns, mapColAt_cols]

theorem toNumericAux_rows_length : ∀ (ns : List Name) (t : Table),
    (toNumericAux ns t).rows.length = t.rows.length
  | [], _ => rfl
  | n :: ns, t => by
    rw [show toNumericAux (n :: ns) t = toNumericAux ns (mapColAt t n toNumericCell) from rfl,
      toNumericAux_rows_length ns, mapColAt_rows_length]

theorem WF_toNumericAux : ∀ (ns : List Name) {t : Table}, WF t →
    WF (toNumericAux ns t)
  | [], _, hwf => hwf
  | n :: ns, _, hwf =>
    WF_toNumericAux ns (WF_mapColAt hwf n toNumericCell)

theorem getCol_toNumericAux_other : ∀ (ns : List Name) (t : Table) (m : Name),
    m ∉ ns → getCol (toNumericAux ns t) m = getCol t m
  | [], _, _, _ => rfl
  | n :: ns, t, m, hm => by
    rw [show toNumericAux (n :: ns) t = toNumericAux ns (mapColAt t n toNumericCell) from rfl,
      getCol_toNumericAux_other ns _ m (fun hc => hm (List.mem_cons_of_mem n hc)),
      getCol_mapColAt_other (fun hc : m = n =>
        hm (by rw [hc]; exact List.mem_cons_self n ns))]

theorem getCol_toNumericAux_self : ∀ (ns : List Name) (t : Table) (n : Name),
    ns.Nodup → n ∈ ns →
    getCol (toNumericAux ns t) n = (getCol t n).map (List.map toNumericCell)
  | [], _, _, _, hmem => by simp at hmem
  | m :: ns, t, n, hnd, hmem => by
    rw [show toNumericAux (m :: ns) t = toNumericAux ns (mapColAt t m toNumericCell) from rfl]
    rcases List.mem_cons.mp hmem with rfl | hns
    · rw [getCol_toNumericAux_other ns _ n (List.nodup_cons.mp hnd).1,
        getCol_mapColAt_self (by rfl)]
    · by_cases hmn : n = m
      · subst hmn
        rw [getCol_toNumericAux_other ns _ n (List.nodup_cons.mp hnd).1,
          getCol_mapColAt_self (by rfl)]
      · rw [getCol_toNumericAux_self ns _ n (List.nodup_cons.mp hnd).2 hns,
          getCol_mapColAt_other hmn]

theorem setColWith_cols (t : Table) (n : Name) (f : List Cell → Cell) :
    (setColWith t n f).cols = t.cols ∨
      (setColWith t n f).cols = t.cols ++ [n] := by
  unfold setColWith
  cases colIdx t.cols n with
  | some i => exact Or.inl rfl
  | none => exact Or.inr rfl

theorem stepDaysBooked_rows_length (t : Table) :
    (stepDaysBooked t).rows.length = t.rows.length := by
  unfold stepDaysBooked
  cases colIdx t.cols "availability_365".data with
  | some i => exact rows_length_setColWith t _ _
  | none => rfl

theorem WF_stepDaysBooked {t : Table} (hwf : WF t) : WF (stepDaysBooked t) := by
  unfold stepDaysBooked
  cases colIdx t.cols "availability_365".data with
  | some i => exact WF_setColWith hwf _ _
  | none => exact hwf

theorem stepSuperhost1_rows_length (t : Table) :
    (stepSuperhost1 t).rows.length = t.rows.length := by
  unfold stepSuperhost1
  cases colIdx t.cols "host_is_superhost".data with
  | some i => exact rows_length_setColWith t _ _
  | none => rfl

theorem WF_stepSuperhost1 {t : Table} (hwf : WF t) : WF (stepSuperhost1 t) := by
  unfold stepSuperhost1
  cases colIdx t.cols "host_is_superhost".data with
  | some i => exact WF_setColWith hwf _ _
  | none => exact hwf

theorem stepSuperhost2_rows_length {t t' : Table}
    (h : stepSuperhost2 t = .ok t') : t'.rows.length = t.rows.length := by
  unfold stepSuperhost2 at h
  cases hc : colIdx t.cols "host_identity_verified".data with
  | some i =>
    simp only [hc] at h
    cases h
    exact rows_length_setColWith t _ _
  | none =>
    simp only [hc] at h
    exact absurd h (by simp)

/-! ## Neighborhood price aggregation (step 10, lines 157–166)

`df.groupby("neighborhood")["price"].mean()` groups by the non-null
neighborhood values (sorted), averaging the non-null numeric prices of
each group; groups whose mean is `NaN` (no numeric price) are not
eligible for `nlargest`/`nsmallest`, which select over the valid means.
`nlargest(10)`/`nsmallest(10)` with the default `keep="first"` are a
stable descending/ascending sort followed by `take 10`. -/

def cellIsNull : Cell → Bool
  | .null => true
  | _ => false

def numOf : Cell → Option ℚ
  | .num q => some q
  | _ => none

/-- Lexicographic order on names, by code point. -/
def nameLeB : Name → Name → Bool
  | [], _ => true
  | _ :: _, [] => false
  | a :: as, b :: bs =>
    if a.toNat < b.toNat then true
    else if b.toNat < a.toNat then false
    else nameLeB as bs

/-- A fixed total order on cells used only to put group keys in pandas'
sorted-key order; the claims proved about the top/bottom lists do not
depend on which order is used. -/
def cellLeB : Cell → Cell → Bool
  | .num a, .num b => a ≤ b
  | .num _, _ => true
  | .inf _, .num _ => false
  | .inf a, .inf b => !a ≤ !b
  | .inf _, _ => true
  | .str a, .str b => nameLeB a b
  | .str _, .null => true
  | .str _, _ => false
  | .null, .null => true
  | .null, _ => false

def insertBy {α : Type} (le : α → α → Bool) (x : α) : List α → List α
  | [] => [x]
  | y :: t => if le x y then x :: y :: t else y :: insertBy le x t

def sortBy {α : Type} (le : α → α → Bool) : List α → List α
  | [] => []
  | x :: t => insertBy le x (sortBy le t)

theorem insertBy_perm {α : Type} (le : α → α → Bool) (x : α) (l : List α) :
    (insertBy le x l).Perm (x :: l) := by
  induction l with
  | nil => exact List.Perm.refl _
  | cons y t ih =>
    unfold insertBy
    by_cases h : le x y
    · rw [if_pos h]
    · rw [if_neg h]
      exact (List.Perm.cons y ih).trans (List.Perm.swap x y t)

theorem sortBy_perm {α : Type} (le : α → α → Bool) (l : List α) :
    (sortBy le l).Perm l := by
  induction l with
  | nil => exact List.Perm.refl _
  | cons x t ih =>
    exact (insertBy_perm le x (sortBy le t)).trans (List.Perm.cons x ih)

/-- Stable descending insertion by the numeric component: an element
goes in front of every later element whose value is not larger —
exactly `nlargest` with `keep="first"`. -/
def insDesc (x : Cell × ℚ) : List (Cell × ℚ) → List (Cell × ℚ)
  | [] => [x]
  | y :: t => if x.2 < y.2 then y :: insDesc x t else x :: y :: t

def sortDesc : List (Cell × ℚ) → List (Cell × ℚ)
  | [] => []
  | x :: t => insDesc x (sortDesc t)

/-- Stable ascending insertion — `nsmallest` with `keep="first"`. -/
def insAsc (x : Cell × ℚ) : List (Cell × ℚ) → List (Cell × ℚ)
  | [] => [x]
  | y :: t => if y.2 < x.2 then y :: insAsc x t else x :: y :: t

def sortAsc : List (Cell × ℚ) → List (Cell × ℚ)
  | [] => []
  | x :: t => insAsc x (sortAsc t)

/-- Sorted by mean price, largest first. -/
def SortedDesc (l : List (Cell × ℚ)) : Prop :=
  l.Pairwise (fun a b => b.2 ≤ a.2)

/-- Sorted by mean price, smallest first. -/
def SortedAsc (l : List (Cell × ℚ)) : Prop :=
  l.Pairwise (fun a b => a.2 ≤ b.2)

theorem insDesc_perm (x : Cell × ℚ) (l : List (Cell × ℚ)) :
    (insDesc x l).Perm (x :: l) := by
  induction l with
  | nil => exact List.Perm.refl _
  | cons y t ih =>
    unfold insDesc
    by_cases h : x.2 < y.2
    · rw [if_pos h]
      exact (List.Perm.cons y ih).trans (List.Perm.swap x y t)
    · rw [if_neg h]

theorem sortDesc_perm (l : List (Cell × ℚ)) : (sortDesc l).Perm l := by
  induction l with
  | nil => exact List.Perm.refl _
  | cons x t ih =>
    exact (insDesc_perm x (sortDesc t)).trans (List.Perm.cons x ih)

theorem insAsc_perm (x : Cell × ℚ) (l : List (Cell × ℚ)) :
    (insAsc x l).Perm (x :: l) := by
  induction l with
  | nil => exact List.Perm.refl _
  | cons y t ih =>
    unfold insAsc
    by_cases h : y.2 < x.2
    · rw [if_pos h]
      exact (List.Perm.cons y ih).trans (List.Perm.swap x y t)
    · rw [if_neg h]

theorem sortAsc_perm (l : List (Cell × ℚ)) : (sortAsc l).Perm l := by
  induction l with
  | nil => exact List.Perm.refl _
  | cons x t ih =>
    exact (insAsc_perm x (sortAsc t)).trans (List.Perm.cons x ih)

theorem mem_insDesc {x a : Cell × ℚ} {l : List (Cell × ℚ)} :
    a ∈ insDesc x l ↔ a = x ∨ a ∈ l := by
  rw [(insDesc_perm x l).mem_iff, List.mem_cons]

theorem mem_insAsc {x a : Cell × ℚ} {l : List (Cell × ℚ)} :
    a ∈ insAsc x l ↔ a = x ∨ a ∈ l := by
  rw [(insAsc_perm x l).mem_iff, List.mem_cons]

theorem pairwise_insDesc {x : Cell × ℚ} {l : List (Cell × ℚ)}
    (h : SortedDesc l) : SortedDesc (insDesc x l) := by
  induction l with
  | nil => simp [insDesc, SortedDesc]
  | cons y t ih =>
    obtain ⟨hy, ht⟩ := List.pairwise_cons.mp h
    unfold insDesc
    by_cases hlt : x.2 < y.2
    · rw [if_pos hlt]
      refine List.pairwise_cons.mpr ⟨?_, ih ht⟩
      intro b hb
      rcases mem_insDesc.mp hb with rfl | hb
      · exact le_of_lt hlt
      · exact hy b hb
    · rw [if_neg hlt]
      refine List.pairwise_cons.mpr ⟨?_, h⟩
      intro b hb
      rcases List.mem_cons.mp hb with rfl | hb
      · exact le_of_not_lt hlt
      · exact le_trans (hy b hb) (le_of_not_lt hlt)

theorem sortedDesc_sortDesc (l : List (Cell × ℚ)) : SortedDesc (sortDesc l) := by
  induction l with
  | nil => exact List.Pairwise.nil
  | cons x t ih => exact pairwise_insDesc ih

theorem pairwise_insAsc {x : Cell × ℚ} {l : List (Cell × ℚ)}
    (h : SortedAsc l) : SortedAsc (insAsc x l) := by
  induction l with
  | nil => simp [insAsc, SortedAsc]
  | cons y t ih =>
    obtain ⟨hy, ht⟩ := List.pairwise_cons.mp h
    unfold insAsc
    by_cases hlt : y.2 < x.2
    · rw [if_pos hlt]
      refine List.pairwise_cons.mpr ⟨?_, ih ht⟩
      intro b hb
      rcases mem_insAsc.mp hb with rfl | hb
      · exact le_of_lt hlt
      · exact hy b hb
    · rw [if_neg hlt]
      refine List.pairwise_cons.mpr ⟨?_, h⟩
      intro b hb
      rcases List.mem_cons.mp hb with rfl | hb
      · exact le_of_not_lt hlt
      · exact le_trans (le_of_not_lt hlt) (hy b hb)

theorem sortedAsc_sortAsc (l : List (Cell × ℚ)) : SortedAsc (sortAsc l) := by
  induction l with
  | nil => exact List.Pairwise.nil
  | cons x t ih => exact pairwise_insAsc ih

/-- In a descending-sorted list, an element of the first `n` positions
has fewer than `n` strictly larger elements. -/
theorem countP_gt_lt_of_mem_take :
    ∀ {s : List (Cell × ℚ)} {x : Cell × ℚ} {n : Nat}, SortedDesc s →
      x ∈ s.take n → s.countP (fun y => decide (x.2 < y.2)) < n := by
  intro s
  induction s with
  | nil => intro x n _ hx; simp at hx
  | cons a t ih =>
    intro x n hs hx
    cases n with
    | zero => simp at hx
    | succ m =>
      obtain ⟨ha, ht⟩ := List.pairwise_cons.mp hs
      rw [List.take_succ_cons] at hx
      rw [List.countP_cons]
      rcases List.mem_cons.mp hx with rfl | hx
      · have h0 : t.countP (fun y => decide (x.2 < y.2)) = 0 := by
          rw [List.countP_eq_zero]
          intro b hb
          simp only [decide_eq_true_eq]
          exact not_lt_of_le (ha b hb)
        rw [h0]
        simp
      · have := ih ht hx
        by_cases hax : x.2 < a.2 <;> simp [hax] <;> omega

/-- In an ascending-sorted list, an element of the first `n` positions
has fewer than `n` strictly smaller elements. -/
theorem countP_lt_lt_of_mem_take :
    ∀ {s : List (Cell × ℚ)} {x : Cell × ℚ} {n : Nat}, SortedAsc s →
      x ∈ s.take n → s.countP (fun y => decide (y.2 < x.2)) < n := by
  intro s
  induction s with
  | nil => intro x n _ hx; simp at hx
  | cons a t ih =>
    intro x n hs hx
    cases n with
    | zero => simp at hx
    | succ m =>
      obtain ⟨ha, ht⟩ := List.pairwise_cons.mp hs
      rw [List.take_succ_cons] at hx
      rw [List.countP_cons]
      rcases List.mem_cons.mp hx with rfl | hx
      · have h0 : t.countP (fun y => decide (y.2 < x.2)) = 0 := by
          rw [List.countP_eq_zero]
          intro b hb
          simp only [decide_eq_true_eq]
          exact not_lt_of_le (ha b hb)
        rw [h0]
        simp
      · have := ih ht hx
        by_cases hax : a.2 < x.2 <;> simp [hax] <;> omega

/-- With pairwise-distinct values, exactly one element of the list
carries the value of a member. -/
theorem countP_snd_eq_one {l : List (Cell × ℚ)}
    (hnd : (l.map Prod.snd).Nodup) {x : Cell × ℚ} (hx : x ∈ l) :
    l.countP (fun y => decide (y.2 = x.2)) = 1 := by
  induction l with
  | nil => simp at hx
  | cons a t ih =>
    rw [List.map_cons, List.nodup_cons] at hnd
    rw [List.countP_cons]
    rcases List.mem_cons.mp hx with rfl | hx
    · have h0 : t.countP (fun y => decide (y.2 = x.2)) = 0 := by
        rw [List.countP_eq_zero]
        intro b hb
        simp only [decide_eq_true_eq]
        intro hbx
        exact hnd.1 (hbx ▸ List.mem_map_of_mem Prod.snd hb)
      rw [h0]
      simp
    · have hne : ¬ a.2 = x.2 := by
        intro hax
        exact hnd.1 (hax ▸ List.mem_map_of_mem Prod.snd hx)
      rw [ih hnd.2 hx]
      simp [hne]

theorem countP_le_split (l : List (Cell × ℚ)) (x : Cell × ℚ) :
    l.countP (fun y => decide (y.2 ≤ x.2)) =
      l.countP (fun y => decide (y.2 < x.2)) +
      l.countP (fun y => decide (y.2 = x.2)) := by
  induction l with
  | nil => rfl
  | cons a t ih =>
    simp only [List.countP_cons]
    rcases lt_trichotomy a.2 x.2 with h | h | h
    · simp [le_of_lt h, h, ne_of_lt h, ih]
      omega
    · simp [le_of_eq h, h, ih]
      omega
    · simp [not_le_of_lt h, lt_asymm h, (ne_of_lt h).symm, ih]

/-- The core disjointness argument: with at least 20 elements of
pairwise-distinct values, nothing is both among the 10 largest and the
10 smallest. -/
theorem take_ten_disjoint {l : List (Cell × ℚ)} (hlen : 20 ≤ l.length)
    (hnd : (l.map Prod.snd).Nodup) {x : Cell × ℚ}
    (htop : x ∈ (sortDesc l).take 10) (hbot : x ∈ (sortAsc l).take 10) :
    False := by
  have hxl : x ∈ l :=
    (sortDesc_perm l).mem_iff.mp (List.take_subset 10 _ htop)
  have hgt : l.countP (fun y => decide (x.2 < y.2)) < 10 := by
    rw [← (sortDesc_perm l).countP_eq]
    exact countP_gt_lt_of_mem_take (sortedDesc_sortDesc l) htop
  have hlt : l.countP (fun y => decide (y.2 < x.2)) < 10 := by
    rw [← (sortAsc_perm l).countP_eq]
    exact countP_lt_lt_of_mem_take (sortedAsc_sortAsc l) hbot
  have hsplit := List.length_eq_countP_add_countP
    (p := fun y => decide (x.2 < y.2)) l
  have hcompl : l.countP (fun y => ¬ decide (x.2 < y.2)) =
      l.countP (fun y => decide (y.2 ≤ x.2)) := by
    apply List.countP_congr
    intro y _
    simp only [Bool.not_eq_true', decide_eq_false_iff_not, decide_eq_true_eq,
      not_lt]
  have heq1 := countP_snd_eq_one hnd hxl
  have hle := countP_le_split l x
  rw [hcompl, hle, heq1] at hsplit
  omega

/-- Mean of the non-null numeric prices of the rows whose neighborhood
cell equals `k`; `none` when the group has no numeric price (pandas
gives such a group a `NaN` mean, ineligible for the top/bottom lists). -/
def groupMean (t : Table) (inb ip : Nat) (k : Cell) : Option ℚ :=
  let qs := (t.rows.filter (fun r => cellAt r inb = k)).filterMap
    (fun r => numOf (cellAt r ip))
  if qs = [] then none
  else some (qDiv (qs.foldl qAdd 0) (ratOfNat qs.length))

/-- `df.groupby("neighborhood")["price"].mean()` restricted to the valid
means: one `(neighborhood, mean)` pair per distinct non-null
neighborhood value, in sorted key order. -/
def neighborhoodMeans (t : Table) : List (Cell × ℚ) :=
  match colIdx t.cols "neighborhood".data, colIdx t.cols "price".data with
  | some inb, some ip =>
    (sortBy cellLeB
        (dedupFirst ((t.rows.map (fun r => cellAt r inb)).filter
          (fun c => ¬ cellIsNull c)))).filterMap
      (fun k => (groupMean t inb ip k).map (fun m => (k, m)))
  | _, _ => []

/-- `avg_price_neighborhood.nlargest(10, "price")` (line 165). -/
def topTenExpensive (t : Table) : List (Cell × ℚ) :=
  (sortDesc (neighborhoodMeans t)).take 10

/-- `avg_price_neighborhood.nsmallest(10, "price")` (line 166). -/
def topTenCheap (t : Table) : List (Cell × ℚ) :=
  (sortAsc (neighborhoodMeans t)).take 10

theorem map_fst_filterMap_sublist {α : Type} (g : Cell → Option α) :
    ∀ keys : List Cell,
      List.Sublist ((keys.filterMap
        (fun k => (g k).map (fun m => (k, m)))).map Prod.fst) keys
  | [] => List.Sublist.refl []
  | k :: ks => by
    rw [List.filterMap_cons]
    cases g k with
    | none => exact List.Sublist.cons k (map_fst_filterMap_sublist g ks)
    | some m =>
      simp only [Option.map_some', List.map_cons]
      exact List.Sublist.cons₂ k (map_fst_filterMap_sublist g ks)

/-- The neighborhoods of the means table are pairwise distinct (group
keys are deduplicated). -/
theorem neighborhoodMeans_keys_nodup (t : Table) :
    ((neighborhoodMeans t).map Prod.fst).Nodup := by
  unfold neighborhoodMeans
  cases colIdx t.cols "neighborhood".data with
  | none => simp
  | some inb =>
    cases colIdx t.cols "price".data with
    | none => simp
    | some ip =>
      apply List.Sublist.nodup (map_fst_filterMap_sublist _ _)
      exact ((sortBy_perm cellLeB _).nodup_iff).mpr (nodup_dedupAux [] _)

/-- Two entries of the means table with the same neighborhood are the
same entry. -/
theorem eq_of_fst_eq_of_nodup {l : List (Cell × ℚ)}
    (hnd : (l.map Prod.fst).Nodup) :
    ∀ {p q : Cell × ℚ}, p ∈ l → q ∈ l → p.1 = q.1 → p = q := by
  induction l with
  | nil => intro p q hp; simp at hp
  | cons a t ih =>
    rw [List.map_cons, List.nodup_cons] at hnd
    intro p q hp hq hpq
    rcases List.mem_cons.mp hp with hpa | hp2
    · rcases List.mem_cons.mp hq with hqa | hq2
      · rw [hpa, hqa]
      · exfalso
        apply hnd.1
        rw [← hpa, hpq]
        exact List.mem_map_of_mem Prod.fst hq2
    · rcases List.mem_cons.mp hq with hqa | hq2
      · exfalso
        apply hnd.1
        rw [← hqa, ← hpq]
        exact List.mem_map_of_mem Prod.fst hp2
      · exact ih hnd.2 hp2 hq2 hpq

/-! ### Column survival through the early steps -/

theorem dropPair :
    ∀ (cols : List Name) (r : List Cell), r.length = cols.length →
      ∀ {m : Name}, m ∉ columnsToDrop →
      (colIdx (cols.filter (fun n => ¬ n ∈ columnsToDrop)) m).map
          (cellAt (dropRow cols r))
        = (colIdx cols m).map (cellAt r) := by
  intro cols
  induction cols with
  | nil =>
    intro r hr m _
    rw [List.length_eq_zero.mp hr]
    rfl
  | cons n ns ih =>
    intro r hr m hm
    cases r with
    | nil => simp at hr
    | cons c cs =>
      simp only [List.length_cons] at hr
      have hrlen : cs.length = ns.length := by omega
      have hdr : dropRow (n :: ns) (c :: cs) =
          if n ∈ columnsToDrop then dropRow ns cs else c :: dropRow ns cs := rfl
      by_cases hn : n ∈ columnsToDrop
      · have hfil : (n :: ns).filter (fun x => ¬ x ∈ columnsToDrop) =
            ns.filter (fun x => ¬ x ∈ columnsToDrop) := by
          simp only [List.filter_cons]
          rw [show (decide ¬(n ∈ columnsToDrop)) = false by simpa using hn]
          simp
        have hdrop : dropRow (n :: ns) (c :: cs) = dropRow ns cs := by
          rw [hdr, if_pos hn]
        have hnm : ¬ n = m := fun hc => hm (hc ▸ hn)
        have hcix : colIdx (n :: ns) m = (colIdx ns m).map (· + 1) := by
          rw [show colIdx (n :: ns) m =
            (if n = m then some 0 else (colIdx ns m).map (· + 1)) from rfl,
            if_neg hnm]
        rw [hfil, hdrop, ih cs hrlen hm, hcix]
        cases colIdx ns m with
        | none => rfl
        | some j =>
          simp only [Option.map_some']
          rw [show cellAt (c :: cs) (j + 1) = cellAt cs j from rfl]
      · have hfil : (n :: ns).filter (fun x => ¬ x ∈ columnsToDrop) =
            n :: ns.filter (fun x => ¬ x ∈ columnsToDrop) := by
          simp only [List.filter_cons]
          rw [show (decide ¬(n ∈ columnsToDrop)) = true by simpa using hn]
          simp
        have hdrop : dropRow (n :: ns) (c :: cs) = c :: dropRow ns cs := by
          rw [hdr, if_neg hn]
        rw [hfil, hdrop,
          show colIdx (n :: ns.filter (fun x => ¬ x ∈ columnsToDrop)) m =
            (if n = m then some 0
             else (colIdx (ns.filter (fun x => ¬ x ∈ columnsToDrop)) m).map (· + 1)) from rfl,
          show colIdx (n :: ns) m =
            (if n = m then some 0 else (colIdx ns m).map (· + 1)) from rfl]
        by_cases hnm : n = m
        · rw [if_pos hnm, if_pos hnm]
          rfl
        · rw [if_neg hnm, if_neg hnm]
          have := ih cs hrlen hm
          cases hf : colIdx (ns.filter (fun x => ¬ x ∈ columnsToDrop)) m with
          | none =>
            rw [hf] at this
            cases hcn : colIdx ns m with
            | none => rfl
            | some j => rw [hcn] at this; exact absurd this.symm (by simp)
          | some i =>
            rw [hf] at this
            cases hcn : colIdx ns m with
            | none => rw [hcn] at this; exact absurd this (by simp)
            | some j =>
              rw [hcn] at this
              simp only [Option.map_some', Option.some.injEq] at this
              simp only [Option.map_some', Option.some.injEq]
              rw [show cellAt (c :: dropRow ns cs) (i + 1) = cellAt (dropRow ns cs) i from rfl,
                show cellAt (c :: cs) (j + 1) = cellAt cs j from rfl]
              exact this

theorem getCol_stepDropCols {t : Table} (hwf : WF t) {m : Name}
    (hm : m ∉ columnsToDrop) : getCol (stepDropCols t) m = getCol t m := by
  unfold getCol stepDropCols
  cases hcm : colIdx t.cols m with
  | none =>
    have : m ∉ t.cols := colIdx_eq_none_iff.mp hcm
    rw [colIdx_eq_none_iff.mpr (fun hc => this (List.mem_of_mem_filter hc))]
    rfl
  | some j =>
    have hmem : m ∈ t.cols := mem_of_colIdx_eq_some hcm
    have hmemf : m ∈ t.cols.filter (fun n => ¬ n ∈ columnsToDrop) :=
      List.mem_filter.mpr ⟨hmem, by simpa using hm⟩
    obtain ⟨i, hi⟩ := colIdx_isSome_of_mem hmemf
    rw [hi]
    simp only [Option.map_some', Option.some.injEq, List.map_map]
    apply List.map_congr_left
    intro r hr
    have := dropPair t.cols r (hwf r hr) hm
    rw [hi, hcm] at this
    simpa using this

/-- The cells of a column, `[]` when the column is absent. -/
def colCells (t : Table) (n : Name) : List Cell := (getCol t n).getD []

theorem colCells_stepDedup_subset {t : Table} {m : Name} :
    ∀ c ∈ colCells (stepDedup t) m, c ∈ colCells t m := by
  intro c hc
  have hc' : c ∈ ((colIdx t.cols m).map
      (fun i => (dedupFirst t.rows).map (fun r => cellAt r i))).getD [] := hc
  show c ∈ ((colIdx t.cols m).map
      (fun i => t.rows.map (fun r => cellAt r i))).getD []
  cases hcm : colIdx t.cols m with
  | none => rw [hcm] at hc'; simp at hc'
  | some i =>
    rw [hcm] at hc'
    simp only [Option.map_some', Option.getD_some, List.mem_map] at hc' ⊢
    obtain ⟨r, hr, hrc⟩ := hc'
    exact ⟨r, (dedupFirst_sublist t.rows).mem hr, hrc⟩

theorem not_mem_setColWith_cols {t : Table} {n m : Name} (hm : m ∉ t.cols)
    (hne : m ≠ n) (f : List Cell → Cell) : m ∉ (setColWith t n f).cols := by
  rcases setColWith_cols t n f with h | h <;> rw [h]
  · exact hm
  · intro hc
    rcases List.mem_append.mp hc with hc | hc
    · exact hm hc
    · exact hne (by simpa using hc)

theorem mem_setColWith_cols {t : Table} {n m : Name} (hm : m ∈ t.cols)
    (f : List Cell → Cell) : m ∈ (setColWith t n f).cols := by
  rcases setColWith_cols t n f with h | h <;> rw [h]
  · exact hm
  · exact List.mem_append_left _ hm

theorem mem_setColWith_cols_self (t : Table) (n : Name)
    (f : List Cell → Cell) : n ∈ (setColWith t n f).cols := by
  unfold setColWith
  cases hc : colIdx t.cols n with
  | some i => exact mem_of_colIdx_eq_some hc
  | none => exact List.mem_append_right _ (List.mem_singleton.mpr rfl)

theorem getCol_stepDaysBooked_other {t : Table} (hwf : WF t) {m : Name}
    (hne : m ≠ "days_booked".data) (hm : m ∈ t.cols) :
    getCol (stepDaysBooked t) m = getCol t m := by
  unfold stepDaysBooked
  cases colIdx t.cols "availability_365".data with
  | some i => exact getCol_setColWith_other hwf hne hm _
  | none => rfl

theorem mem_cols_stepDaysBooked {t : Table} {m : Name} (hm : m ∈ t.cols) :
    m ∈ (stepDaysBooked t).cols := by
  unfold stepDaysBooked
  cases colIdx t.cols "availability_365".data with
  | some i => exact mem_setColWith_cols hm _
  | none => exact hm

theorem not_mem_cols_stepDaysBooked {t : Table} {m : Name} (hm : m ∉ t.cols)
    (hne : m ≠ "days_booked".data) : m ∉ (stepDaysBooked t).cols := by
  unfold stepDaysBooked
  cases colIdx t.cols "availability_365".data with
  | some i => exact not_mem_setColWith_cols hm hne _
  | none => exact hm

theorem getCol_stepSuperhost1_other {t : Table} (hwf : WF t) {m : Name}
    (hne : m ≠ "is_superhost".data) (hm : m ∈ t.cols) :
    getCol (stepSuperhost1 t) m = getCol t m := by
  unfold stepSuperhost1
  cases colIdx t.cols "host_is_superhost".data with
  | some i => exact getCol_setColWith_other hwf hne hm _
  | none => rfl

theorem mem_cols_stepSuperhost1 {t : Table} {m : Name} (hm : m ∈ t.cols) :
    m ∈ (stepSuperhost1 t).cols := by
  unfold stepSuperhost1
  cases colIdx t.cols "host_is_superhost".data with
  | some i => exact mem_setColWith_cols hm _
  | none => exact hm

theorem not_mem_cols_stepSuperhost1 {t : Table} {m : Name} (hm : m ∉ t.cols)
    (hne : m ≠ "is_superhost".data) : m ∉ (stepSuperhost1 t).cols := by
  unfold stepSuperhost1
  cases colIdx t.cols "host_is_superhost".data with
  | some i => exact not_mem_setColWith_cols hm hne _
  | none => exact hm

/-- Did the whole run succeed? -/
def runOk (t : Table) : Bool :=
  match runPipeline t with
  | .ok _ => true
  | .error _ => false

/-- The exported table of a successful run (junk on a failed one). -/
def pipelineOut (t : Table) : Table :=
  match runPipeline t with
  | .ok o => o
  | .error _ => ⟨[], []⟩

/-! ## Concrete frames used as witnesses and counterexamples -/

/-- A frame with no columns at all. -/
def emptyTable : Table := ⟨[], []⟩

/-- The spec's end-to-end example row, completed with the columns the
script dereferences unconditionally (so that the run can reach the
export step) and a `host_identity_verified` value of `"f"`. -/
def exampleRowTable : Table :=
  ⟨["price".data, "service_fee".data, "availability_365".data,
    "host_is_superhost".data, "host_identity_verified".data,
    "review_rate_number".data, "number_of_reviews".data,
    "reviews_per_month".data],
   [[.str "$100.00".data, .str "$5".data, .num (ratOfNat 300),
     .str "t".data, .str "f".data, .null, .null, .null]]⟩

/-- A zero-row frame with exactly the unconditionally-referenced
columns, on which the run succeeds. -/
def smokeTable : Table :=
  ⟨["price".data, "review_rate_number".data, "number_of_reviews".data,
    "reviews_per_month".data, "host_identity_verified".data], []⟩

/-- Twenty distinct one-row neighborhoods. -/
def nbName (k : Nat) : Name := ['n', Char.ofNat (65 + k)]

/-- Twenty neighborhoods, all with the same mean price. -/
def tieTable : Table :=
  ⟨["neighborhood".data, "price".data],
   (List.range 20).map (fun k => [Cell.str (nbName k), Cell.num 5])⟩

/-- Twenty neighborhoods with pairwise-distinct mean prices. -/
def distinctTable : Table :=
  ⟨["neighborhood".data, "price".data],
   (List.range 20).map (fun k => [Cell.str (nbName k), Cell.num (ratOfNat k)])⟩

/-- A frame with both policy columns, the unconditionally-referenced
columns, and one row whose cancellation policy is not "strict". -/
def strictFreeTable : Table :=
  ⟨["cancellation_policy".data, "room_type".data, "price".data,
    "review_rate_number".data, "number_of_reviews".data,
    "reviews_per_month".data, "host_identity_verified".data],
   [[.str "flexible".data, .str "Entire home".data, .num (ratOfNat 9),
     .null, .null, .null, .str "t".data]]⟩

/-- Anatomy of a successful run: the currency step succeeded, the
strict-policy arg-max was non-empty, and the second (unguarded)
`is_superhost` assignment produced the exported frame. -/
theorem runPipeline_ok_shape {t t8 : Table} (h : runPipeline t = .ok t8) :
    ∃ t4, stepCurrency (stepDedup (stepDropCols (stepNormalize t))) = .ok t4 ∧
      checkStrictRoom (stepSuperhost1 (stepDaysBooked (stepToNumeric t4))) =
        .ok () ∧
      stepSuperhost2 (stepSuperhost1 (stepDaysBooked (stepToNumeric t4))) =
        .ok t8 := by
  unfold runPipeline at h
  cases h4 : stepCurrency (stepDedup (stepDropCols (stepNormalize t))) with
  | error e => simp only [h4] at h; exact Except.noConfusion h
  | ok t4 =>
    simp only [h4] at h
    refine ⟨t4, rfl, ?_⟩
    cases h5 : checkStrictRoom (stepSuperhost1 (stepDaysBooked (stepToNumeric t4))) with
    | error e => simp only [h5] at h; exact Except.noConfusion h
    | ok u =>
      simp only [h5] at h
      cases u
      refine ⟨rfl, ?_⟩
      cases h6 : checkAvgGroup (stepSuperhost1 (stepDaysBooked (stepToNumeric t4))) with
      | error e => simp only [h6] at h; exact Except.noConfusion h
      | ok u2 =>
        simp only [h6] at h
        cases h7 : checkNeighborhood (stepSuperhost1 (stepDaysBooked (stepToNumeric t4))) with
        | error e => simp only [h7] at h; exact Except.noConfusion h
        | ok u3 =>
          simp only [h7] at h
          cases h8 : checkReviewBoxplot (stepSuperhost1 (stepDaysBooked (stepToNumeric t4))) with
          | error e => simp only [h8] at h; exact Except.noConfusion h
          | ok u4 =>
            simp only [h8] at h
            cases h9 : stepSuperhost2 (stepSuperhost1 (stepDaysBooked (stepToNumeric t4))) with
            | error e => simp only [h9] at h; exact Except.noConfusion h
            | ok t9 =>
              simp only [h9] at h
              cases h10 : checkHostBoxplots t9 with
              | error e => simp only [h10] at h; exact Except.noConfusion h
              | ok u5 =>
                simp only [h10] at h
                exact h

/-! ## The claims -/

/-- C8: header normalisation is idempotent — normalising the headers of
an already-normalised frame changes nothing, for every list of column
names. -/
theorem c8_header_normalization_idempotent (t : Table) :
    stepNormalize (stepNormalize t) = stepNormalize t := by
  show Table.mk ((t.cols.map normName).map normName) t.rows
    = Table.mk (t.cols.map normName) t.rows
  rw [List.map_map]
  congr 1
  apply List.map_congr_left
  intro n _
  exact normName_idem n

/-- C6: when `availability_365` is present, a `days_booked` column is
added whose cells are the image of the availability cells under the
per-cell subtraction; a non-null numeric availability `q ∈ [0, 365]`
yields exactly `365 - q`, and a null availability yields a null. -/
theorem c6_days_booked (t : Table) (hwf : WF t)
    (hav : "availability_365".data ∈ t.cols) :
    "days_booked".data ∈ (stepDaysBooked t).cols ∧
    getCol (stepDaysBooked t) "days_booked".data =
      (getCol t "availability_365".data).map (List.map daysBookedOf) ∧
    (∀ q : ℚ, 0 ≤ q → q ≤ 365 → daysBookedOf (.num q) = .num (365 - q)) ∧
    daysBookedOf .null = .null := by
  obtain ⟨i, hi⟩ := colIdx_isSome_of_mem hav
  have hstep : stepDaysBooked t =
      setColWith t "days_booked".data (fun r => daysBookedOf (cellAt r i)) := by
    unfold stepDaysBooked
    rw [hi]
  refine ⟨?_, ?_, ?_, rfl⟩
  · rw [hstep]
    exact mem_setColWith_cols_self t _ _
  · rw [hstep, getCol_setColWith_self hwf]
    show _ = ((colIdx t.cols "availability_365".data).map
      (fun i => t.rows.map (fun r => cellAt r i))).map (List.map daysBookedOf)
    rw [hi]
    simp [List.map_map]
  · intro q _ _
    show Cell.num (qSub (ratOfNat 365) q) = Cell.num (365 - q)
    rw [qSub_eq, ratOfNat_eq_cast]
    norm_num

/-- C6 witness: a one-row frame with `availability_365 = 300` gets a
`days_booked` column, and the subtraction gives `65` for that row. -/
theorem c6_days_booked_witness :
    "days_booked".data ∈
      (stepDaysBooked ⟨["availability_365".data],
        [[Cell.num (ratOfNat 300)]]⟩).cols ∧
    daysBookedOf (.num (ratOfNat 300)) = .num (365 - ratOfNat 300) :=
  ⟨(c6_days_booked _ (by decide) (by decide)).1,
   (c6_days_booked ⟨["availability_365".data], [[Cell.num (ratOfNat 300)]]⟩
      (by decide) (by decide)).2.2.1 (ratOfNat 300) (by decide) (by decide)⟩

/-- C7: `pd.to_numeric(errors="coerce")` maps each listed column
cell-wise — parseable strings to their numbers, unparseable strings to
null — never raising, and leaves every other column untouched. -/
theorem c7_numeric_coercion (t : Table) :
    (∀ n ∈ numericColumns,
      getCol (stepToNumeric t) n = (getCol t n).map (List.map toNumericCell)) ∧
    (∀ m, m ∉ numericColumns → getCol (stepToNumeric t) m = getCol t m) ∧
    (∀ s q, pyFloat s = some (.num q) → toNumericCell (.str s) = .num q) ∧
    (∀ s, pyFloat s = none → toNumericCell (.str s) = .null) ∧
    toNumericCell .null = .null := by
  refine ⟨?_, ?_, ?_, ?_, rfl⟩
  · intro n hn
    exact getCol_toNumericAux_self numericColumns t n (by decide) hn
  · intro m hm
    exact getCol_toNumericAux_other numericColumns t m hm
  · intro s q h
    show (pyFloat s).getD .null = .num q
    rw [h]
    rfl
  · intro s h
    show (pyFloat s).getD .null = .null
    rw [h]
    rfl

/-- C7 witness: on a one-row frame, the `availability_365` column is
coerced cell-wise, `"12"` parses, and `"xx"` coerces to null. -/
theorem c7_numeric_coercion_witness :
    getCol (stepToNumeric ⟨["availability_365".data], [[Cell.str "xx".data]]⟩)
        "availability_365".data =
      (getCol ⟨["availability_365".data], [[Cell.str "xx".data]]⟩
        "availability_365".data).map (List.map toNumericCell) ∧
    toNumericCell (.str "xx".data) = .null :=
  ⟨(c7_numeric_coercion _).1 _ (by decide),
   (c7_numeric_coercion ⟨["availability_365".data], [[Cell.str "xx".data]]⟩).2.2.2.1
     "xx".data (by decide)⟩

/-- C4 counterexample: `"$1e5"` still contains the letter `e` after
stripping `$` and `,`, yet `astype(float)` parses it to `100000.0`
instead of failing — Python float syntax admits exponent letters. -/
theorem c4_counterexample :
    ('e' ∈ stripCurrency "$1e5".data ∧ isAsciiAlpha 'e' = true) ∧
    cleanCurrencyCell (.str "$1e5".data) = .ok (.num (ratOfNat 100000)) := by
  decide

/-- C4 (amended): currency normalisation sends `"$1,234.50"` to
`1234.50` and `"$0"` to `0.0`; a stripped cell that does not parse as a
Python float literal makes the run fail (there is no coercion fallback),
and in any parseable cell the only letters are those of exponent
notation or the tokens `inf`/`infinity`/`nan` — so letters outside
those forms (for example `"$abc"`) abort the run, while `"$1e5"` or
`"nan"` do not. -/
theorem c4_currency_normalization :
    cleanCurrencyCell (.str "$1,234.50".data) = .ok (.num (mkRat 2469 2)) ∧
    (mkRat 2469 2 : ℚ) = 1234.5 ∧
    cleanCurrencyCell (.str "$0".data) = .ok (.num 0) ∧
    cleanCurrencyCell (.str "$abc".data) =
      .error "could not convert string to float" ∧
    (∀ s, pyFloat (stripCurrency s) = none →
      cleanCurrencyCell (.str s) = .error "could not convert string to float") ∧
    (∀ s v, pyFloat s = some v → ∀ c ∈ s, isAsciiAlpha c = true →
      lowerChar c ∈ floatLetters) := by
  refine ⟨by decide, ?_, by decide, by decide, ?_, ?_⟩
  · rw [Rat.mkRat_eq_div]
    norm_num
  · intro s h
    show (match pyFloat (stripCurrency s) with
      | some c => Except.ok c
      | none => Except.error "could not convert string to float") = _
    rw [h]
  · intro s v h
    exact pyFloat_letters h

/-- C4 witness: the failing branch applied at the concrete cell
`"$abc"`, whose stripped form does not parse. -/
theorem c4_currency_normalization_witness :
    cleanCurrencyCell (.str "$abc".data) =
      .error "could not convert string to float" :=
  c4_currency_normalization.2.2.2.2.1 "$abc".data (by decide)

/-- C5 counterexample: twenty distinct neighborhoods, all with the same
mean price 5 — `nlargest`/`nsmallest` tie-break by position, and the two
top-10 lists share a neighborhood, so "≥ 20 distinct neighborhoods with
valid mean price" does not suffice for disjointness; the means must also
be pairwise distinct. -/
theorem c5_counterexample :
    20 ≤ (neighborhoodMeans tieTable).length ∧
    ((topTenExpensive tieTable).any (fun p =>
      (topTenCheap tieTable).any (fun q => decide (p.1 = q.1)))) = true := by
  decide

/-- C5 (amended): whenever at least 20 neighborhoods have a valid mean
price AND those means are pairwise distinct, the top-10 and bottom-10
lists share no neighborhood, the top-10 list is sorted by mean price
descending, and the bottom-10 list ascending. -/
theorem c5_top_bottom_ten (t : Table)
    (h20 : 20 ≤ (neighborhoodMeans t).length)
    (hnd : ((neighborhoodMeans t).map Prod.snd).Nodup) :
    (∀ p ∈ topTenExpensive t, ∀ q ∈ topTenCheap t, p.1 ≠ q.1) ∧
    SortedDesc (topTenExpensive t) ∧ SortedAsc (topTenCheap t) := by
  refine ⟨?_, ?_, ?_⟩
  · intro p hp q hq hpq
    have hpl : p ∈ neighborhoodMeans t :=
      (sortDesc_perm _).mem_iff.mp (List.take_subset 10 _ hp)
    have hql : q ∈ neighborhoodMeans t :=
      (sortAsc_perm _).mem_iff.mp (List.take_subset 10 _ hq)
    have hpq2 : p = q :=
      eq_of_fst_eq_of_nodup (neighborhoodMeans_keys_nodup t) hpl hql hpq
    subst hpq2
    exact take_ten_disjoint h20 hnd hp hq
  · exact List.Pairwise.sublist (List.take_sublist 10 _) (sortedDesc_sortDesc _)
  · exact List.Pairwise.sublist (List.take_sublist 10 _) (sortedAsc_sortAsc _)

/-- C5 witness: twenty neighborhoods with pairwise-distinct means — both
hypotheses hold by evaluation and the amended conclusion follows. -/
theorem c5_top_bottom_ten_witness :
    (∀ p ∈ topTenExpensive distinctTable, ∀ q ∈ topTenCheap distinctTable,
      p.1 ≠ q.1) ∧
    SortedDesc (topTenExpensive distinctTable) ∧
    SortedAsc (topTenCheap distinctTable) :=
  c5_top_bottom_ten distinctTable (by decide) (by decide)

/-- C1 counterexample: on a frame with no columns at all, every guarded
operation is skipped, yet the run still aborts — the boxplot at line 220
dereferences `review_rate_number` with no guard.  Missing columns are
NOT uniformly soft-skipped. -/
theorem c1_counterexample :
    runPipeline emptyTable =
      .error "ValueError: could not interpret value review_rate_number" := by
  decide

/-- C1 (amended): some column absences are fatal, not soft-skipped — in
particular, whatever else the frame contains, if the normalised header
lacks `host_identity_verified` then the run aborts (the unguarded
line-264 assignment, or an earlier unguarded access, raises). -/
theorem c1_missing_column_aborts (t : Table)
    (h : "host_identity_verified".data ∉ (stepNormalize t).cols) :
    runOk t = false := by
  unfold runOk
  cases hr : runPipeline t with
  | error e => rfl
  | ok t8 =>
    exfalso
    obtain ⟨t4, h4, _, hs2⟩ := runPipeline_ok_shape hr
    have h2 : "host_identity_verified".data ∉
        (stepSuperhost1 (stepDaysBooked (stepToNumeric t4))).cols := by
      apply not_mem_cols_stepSuperhost1 _ (by decide)
      apply not_mem_cols_stepDaysBooked _ (by decide)
      show "host_identity_verified".data ∉ (toNumericAux numericColumns t4).cols
      rw [toNumericAux_cols, stepCurrency_ok_cols h4]
      intro hc
      exact h (List.mem_of_mem_filter hc)
    unfold stepSuperhost2 at hs2
    rw [colIdx_eq_none_iff.mpr h2] at hs2
    exact Except.noConfusion hs2

/-- C1 witness: the amended theorem applied to the empty frame, whose
normalised header has no `host_identity_verified`. -/
theorem c1_missing_column_aborts_witness : runOk emptyTable = false :=
  c1_missing_column_aborts emptyTable (by decide)

/-- C2: in every successful run the exported frame has an
`is_superhost` column, and it is exactly the cell-wise
"Verified Host"/"Non-Verified Host" relabelling of the exported
`host_identity_verified` column — the line-264 assignment from
`host_identity_verified` silently overwrites the line-124 one from
`host_is_superhost`. -/
theorem c2_superhost_overwritten (t out : Table) (hwf : WF t)
    (h : runPipeline t = .ok out) :
    "is_superhost".data ∈ out.cols ∧
    getCol out "is_superhost".data =
      (getCol out "host_identity_verified".data).map
        (List.map (superCell "Verified Host".data "Non-Verified Host".data)) := by
  obtain ⟨t4, h4, _, hs2⟩ := runPipeline_ok_shape h
  have hwf7 : WF (stepSuperhost1 (stepDaysBooked (stepToNumeric t4))) :=
    WF_stepSuperhost1 (WF_stepDaysBooked (WF_toNumericAux numericColumns
      (WF_stepCurrency (WF_stepDedup (WF_stepDropCols (WF_stepNormalize hwf)))
        h4)))
  set t7 := stepSuperhost1 (stepDaysBooked (stepToNumeric t4)) with ht7
  unfold stepSuperhost2 at hs2
  cases hidx : colIdx t7.cols "host_identity_verified".data with
  | none =>
    rw [hidx] at hs2
    exact Except.noConfusion hs2
  | some i =>
    rw [hidx] at hs2
    have hiv7 : "host_identity_verified".data ∈ t7.cols :=
      mem_of_colIdx_eq_some hidx
    have hout : setColWith t7 "is_superhost".data
        (fun r => superCell "Verified Host".data "Non-Verified Host".data
          (cellAt r i)) = out := by
      cases hs2
      rfl
    rw [← hout]
    constructor
    · exact mem_setColWith_cols_self t7 _ _
    · rw [getCol_setColWith_self hwf7,
        getCol_setColWith_other hwf7 (by decide) hiv7]
      unfold getCol
      rw [hidx]
      simp [List.map_map]

/-- C2 witness: the spec's example row carries
`host_identity_verified = "f"`, and the amended relation holds of the
exported frame. -/
theorem c2_superhost_overwritten_witness :
    "is_superhost".data ∈ (pipelineOut exampleRowTable).cols ∧
    getCol (pipelineOut exampleRowTable) "is_superhost".data =
      (getCol (pipelineOut exampleRowTable) "host_identity_verified".data).map
        (List.map (superCell "Verified Host".data "Non-Verified Host".data)) :=
  c2_superhost_overwritten exampleRowTable (pipelineOut exampleRowTable)
    (by decide) (by decide)

/-- C3 counterexample: on the spec's example row (with the mandatory
`host_identity_verified` column set to `"f"`), the exported superhost
label is "Non-Verified Host" — the positive "Superhost" category the
spec expects is overwritten by the second derivation before export. -/
theorem c3_counterexample :
    runPipeline exampleRowTable = .ok (pipelineOut exampleRowTable) ∧
    getCol (pipelineOut exampleRowTable) "is_superhost".data =
      some [Cell.str "Non-Verified Host".data] ∧
    getCol (pipelineOut exampleRowTable) "is_superhost".data ≠
      some [Cell.str "Superhost".data] := by
  decide

/-- C3 (amended): on the example row the exported numeric fields are as
the spec says — `price = 100`, `service_fee = 5`, `days_booked = 65` —
and the feature-engineering stage does label the row "Superhost" from
`host_is_superhost = "t"`, but the exported `is_superhost` value is the
line-264 relabelling of `host_identity_verified`, here
"Non-Verified Host". -/
theorem c3_example_row :
    getCol (pipelineOut exampleRowTable) "price".data =
      some [Cell.num (ratOfNat 100)] ∧
    getCol (pipelineOut exampleRowTable) "service_fee".data =
      some [Cell.num (ratOfNat 5)] ∧
    getCol (pipelineOut exampleRowTable) "days_booked".data =
      some [Cell.num (ratOfNat 65)] ∧
    (match stepCurrency (stepDedup (stepDropCols (stepNormalize exampleRowTable))) with
      | .ok t4 => getCol (stepSuperhost1 (stepDaysBooked (stepToNumeric t4)))
          "is_superhost".data
      | .error _ => none) = some [Cell.str "Superhost".data] ∧
    getCol (pipelineOut exampleRowTable) "is_superhost".data =
      some [Cell.str "Non-Verified Host".data] := by
  decide

/-- C9: row count never grows — deduplication only shrinks and is
idempotent, every other mutating step preserves the row count, and a
successful end-to-end run exports at most as many rows as it read. -/
theorem c9_row_count_monotone :
    (∀ l : List (List Cell), (dedupFirst l).length ≤ l.length) ∧
    (∀ l : List (List Cell), dedupFirst (dedupFirst l) = dedupFirst l) ∧
    (∀ t : Table, (stepNormalize t).rows.length = t.rows.length) ∧
    (∀ t : Table, (stepDropCols t).rows.length = t.rows.length) ∧
    (∀ t : Table, (stepDedup t).rows.length ≤ t.rows.length) ∧
    (∀ t t' : Table, stepCurrency t = .ok t' →
      t'.rows.length = t.rows.length) ∧
    (∀ t : Table, (stepToNumeric t).rows.length = t.rows.length) ∧
    (∀ t : Table, (stepDaysBooked t).rows.length = t.rows.length) ∧
    (∀ t : Table, (stepSuperhost1 t).rows.length = t.rows.length) ∧
    (∀ t t' : Table, stepSuperhost2 t = .ok t' →
      t'.rows.length = t.rows.length) ∧
    (∀ t out : Table, runPipeline t = .ok out →
      out.rows.length ≤ t.rows.length) := by
  refine ⟨dedupFirst_length_le, dedupFirst_idem, fun _ => rfl, ?_, ?_, ?_,
    toNumericAux_rows_length numericColumns, stepDaysBooked_rows_length,
    stepSuperhost1_rows_length, ?_, ?_⟩
  · intro t
    show (t.rows.map (dropRow t.cols)).length = t.rows.length
    exact List.length_map _ _
  · intro t
    exact dedupFirst_length_le t.rows
  · intro t t' h
    exact stepCurrency_rows_length h
  · intro t t' h
    exact stepSuperhost2_rows_length h
  · intro t out h
    obtain ⟨t4, h4, _, hs2⟩ := runPipeline_ok_shape h
    have e1 : out.rows.length = t4.rows.length := by
      rw [stepSuperhost2_rows_length hs2, stepSuperhost1_rows_length,
        stepDaysBooked_rows_length]
      exact toNumericAux_rows_length numericColumns t4
    have e2 : t4.rows.length ≤ t.rows.length := by
      rw [stepCurrency_rows_length h4]
      show (dedupFirst (stepDropCols (stepNormalize t)).rows).length ≤ _
      calc (dedupFirst (stepDropCols (stepNormalize t)).rows).length
          ≤ (stepDropCols (stepNormalize t)).rows.length :=
            dedupFirst_length_le _
        _ = t.rows.length := by
            show ((stepNormalize t).rows.map _).length = _
            exact List.length_map _ _
    omega

/-- C9 witness: the end-to-end bound applied to the concrete
one-row example frame. -/
theorem c9_row_count_monotone_witness :
    (pipelineOut exampleRowTable).rows.length ≤
      exampleRowTable.rows.length :=
  c9_row_count_monotone.2.2.2.2.2.2.2.2.2.2 exampleRowTable
    (pipelineOut exampleRowTable) (by decide)

/-- C10: when both `cancellation_policy` and `room_type` are present
but no row's cancellation policy lower-cases to "strict", the
`value_counts().idxmax()` at line 144 runs on an empty selection and the
whole run aborts — an empty filter result is fatal, unlike a missing
column elsewhere in the guarded blocks. -/
theorem c10_empty_strict_argmax_aborts (t : Table) (hwf : WF t)
    (hcp : "cancellation_policy".data ∈ (stepNormalize t).cols)
    (hrt : "room_type".data ∈ (stepNormalize t).cols)
    (hstrict : ∀ c ∈ colCells (stepNormalize t) "cancellation_policy".data,
      isStrictCell c = false) :
    runOk t = false := by
  unfold runOk
  cases hr : runPipeline t with
  | error e => rfl
  | ok t8 =>
    exfalso
    obtain ⟨t4, h4, hcs, _⟩ := runPipeline_ok_shape hr
    have wfN : WF (stepNormalize t) := WF_stepNormalize hwf
    have wfDe : WF (stepDedup (stepDropCols (stepNormalize t))) :=
      WF_stepDedup (WF_stepDropCols wfN)
    have wf4 : WF t4 := WF_stepCurrency wfDe h4
    have wfTN : WF (stepToNumeric t4) := WF_toNumericAux numericColumns wf4
    have wfDB : WF (stepDaysBooked (stepToNumeric t4)) :=
      WF_stepDaysBooked wfTN
    have memD : "cancellation_policy".data ∈
        (stepDropCols (stepNormalize t)).cols :=
      List.mem_filter.mpr ⟨hcp, by decide⟩
    have mem4 : "cancellation_policy".data ∈ t4.cols := by
      rw [stepCurrency_ok_cols h4]
      exact memD
    have memTN : "cancellation_policy".data ∈ (stepToNumeric t4).cols := by
      show _ ∈ (toNumericAux numericColumns t4).cols
      rw [toNumericAux_cols]
      exact mem4
    have memDB : "cancellation_policy".data ∈
        (stepDaysBooked (stepToNumeric t4)).cols :=
      mem_cols_stepDaysBooked memTN
    have mem7 : "cancellation_policy".data ∈
        (stepSuperhost1 (stepDaysBooked (stepToNumeric t4))).cols :=
      mem_cols_stepSuperhost1 memDB
    have memrD : "room_type".data ∈ (stepDropCols (stepNormalize t)).cols :=
      List.mem_filter.mpr ⟨hrt, by decide⟩
    have memr4 : "room_type".data ∈ t4.cols := by
      rw [stepCurrency_ok_cols h4]
      exact memrD
    have memrTN : "room_type".data ∈ (stepToNumeric t4).cols := by
      show _ ∈ (toNumericAux numericColumns t4).cols
      rw [toNumericAux_cols]
      exact memr4
    have memr7 : "room_type".data ∈
        (stepSuperhost1 (stepDaysBooked (stepToNumeric t4))).cols :=
      mem_cols_stepSuperhost1 (mem_cols_stepDaysBooked memrTN)
    have e7 : getCol (stepSuperhost1 (stepDaysBooked (stepToNumeric t4)))
        "cancellation_policy".data =
        getCol (stepDedup (stepDropCols (stepNormalize t)))
          "cancellation_policy".data := by
      rw [getCol_stepSuperhost1_other wfDB (by decide) memDB,
        getCol_stepDaysBooked_other wfTN (by decide) memTN,
        show getCol (stepToNumeric t4) "cancellation_policy".data =
            getCol t4 "cancellation_policy".data from
          getCol_toNumericAux_other numericColumns t4 _ (by decide)]
      exact getCol_stepCurrency_other (by decide) (by decide) h4
    have hsub : ∀ c ∈ colCells (stepSuperhost1 (stepDaysBooked
        (stepToNumeric t4))) "cancellation_policy".data,
        c ∈ colCells (stepNormalize t) "cancellation_policy".data := by
      intro c hc
      unfold colCells at hc ⊢
      rw [e7] at hc
      have hc2 := colCells_stepDedup_subset _ hc
      unfold colCells at hc2
      rw [getCol_stepDropCols wfN (by decide)] at hc2
      exact hc2
    obtain ⟨ic, hic⟩ := colIdx_isSome_of_mem mem7
    obtain ⟨ir, hir⟩ := colIdx_isSome_of_mem memr7
    have hfilter : (stepSuperhost1 (stepDaysBooked
        (stepToNumeric t4))).rows.filter
        (fun r => isStrictCell (cellAt r ic)) = [] := by
      rw [List.filter_eq_nil_iff]
      intro r hrr
      have hcell : cellAt r ic ∈ colCells (stepSuperhost1 (stepDaysBooked
          (stepToNumeric t4))) "cancellation_policy".data := by
        unfold colCells getCol
        rw [hic]
        exact List.mem_map_of_mem _ hrr
      have hns := hstrict _ (hsub _ hcell)
      simp [hns]
    unfold checkStrictRoom at hcs
    rw [hic, hir] at hcs
    simp only [hfilter] at hcs
    simp [valueCounts, dedupFirst, dedupAux] at hcs

/-- C10 witness: a well-formed frame with both policy columns and one
row whose cancellation policy is "flexible"; the run fails. -/
theorem c10_empty_strict_argmax_aborts_witness :
    runOk strictFreeTable = false :=
  c10_empty_strict_argmax_aborts strictFreeTable (by decide) (by decide)
    (by decide) (by decide)

end Airbnb
